import Mathlib

/- Shallow embedding of the bookmate deduplication / enrichment pipeline
   (scraper/ml_deduplicate.py and scraper/enrich_books.py).

   Strings are modelled as `List Char`.  The Python regular-expression
   substitutions appearing in the source are modelled by explicit scanners
   that follow the leftmost / greedy / non-greedy backtracking semantics of
   the concrete patterns in the code.  The ASCII fragment of Python's case
   folding and of the `\s` / `\w` character classes is modelled (the scraped
   data is ASCII-oriented); `.` in a pattern matches any character except
   newline, and `$` is modelled as end of string. -/

/-- Embedding of Python `str.lower` for one character (ASCII range). -/
def pyLower (c : Char) : Char :=
  if 65 ≤ c.toNat ∧ c.toNat ≤ 90 then Char.ofNat (c.toNat + 32) else c

/-- Embedding of Python `str.upper` for one character (ASCII range). -/
def pyUpper (c : Char) : Char :=
  if 97 ≤ c.toNat ∧ c.toNat ≤ 122 then Char.ofNat (c.toNat - 32) else c

/-- Embedding of the regex class `\s` (ASCII part: space, tab, newline,
carriage return, vertical tab, form feed), as used by `str.strip()` and the
`\s` occurrences in the source's patterns. -/
def pySpace (c : Char) : Bool :=
  decide (c.toNat = 32 ∨ c.toNat = 9 ∨ c.toNat = 10 ∨ c.toNat = 13 ∨
    c.toNat = 11 ∨ c.toNat = 12)

/-- ASCII letters and digits: the regex class `[a-zA-Z0-9]`. -/
def isAlnumAscii (c : Char) : Bool :=
  decide ((48 ≤ c.toNat ∧ c.toNat ≤ 57) ∨ (65 ≤ c.toNat ∧ c.toNat ≤ 90) ∨
    (97 ≤ c.toNat ∧ c.toNat ≤ 122))

/-- Lower-case ASCII letters and digits: the regex class `[a-z0-9]`. -/
def isLowerAlnum (c : Char) : Bool :=
  decide ((48 ≤ c.toNat ∧ c.toNat ≤ 57) ∨ (97 ≤ c.toNat ∧ c.toNat ≤ 122))

/-- Word characters for `\b` boundaries: the class `[a-zA-Z0-9_]` (ASCII). -/
def isWordChar (c : Char) : Bool := isAlnumAscii c || decide (c.toNat = 95)

/-- Drop trailing characters satisfying `p` (helper for `str.strip()` and
for trailing-anchored patterns). -/
def dropTrailing (p : Char → Bool) (s : List Char) : List Char :=
  (s.reverse.dropWhile p).reverse

/-- Embedding of Python `str.strip()` (ASCII whitespace). -/
def pyStrip (s : List Char) : List Char :=
  dropTrailing pySpace (s.dropWhile pySpace)

/-- Embedding of `re.sub(r"^\s*\[\s*", "", t)`: if the first non-whitespace
character is `[`, remove the leading whitespace, the bracket, and the
whitespace following it. -/
def subLeadingBracket (s : List Char) : List Char :=
  match s.dropWhile pySpace with
  | c :: r => if c = '[' then r.dropWhile pySpace else s
  | [] => s

/-- Embedding of `re.sub(r"\s*\]\s*$", "", t)`: if the last non-whitespace
character is `]`, remove it together with the whitespace around it. -/
def subTrailingBracket (s : List Char) : List Char :=
  let r := dropTrailing pySpace s
  match r.getLast? with
  | some c => if c = ']' then dropTrailing pySpace r.dropLast else s
  | none => s

/-- One step of the scanner for `re.sub(r"\[.*?\]", "", t)` (and the same
pattern with parentheses).  State `none`: outside a candidate match; state
`some buf`: an opening delimiter was seen and `buf` holds (reversed) the
characters scanned since.  Because `.` does not match a newline, a newline
aborts the candidate; the aborted characters are emitted literally, which is
faithful to the regex because they can contain no closing delimiter (one
would have closed the pending match) and hence no later match can start
inside them. -/
def subDelimsAux (op cl : Char) : Option (List Char) → List Char → List Char
  | none, [] => []
  | none, c :: r =>
      if c = op then subDelimsAux op cl (some []) r
      else c :: subDelimsAux op cl none r
  | some buf, [] => op :: buf.reverse
  | some buf, c :: r =>
      if c = cl then subDelimsAux op cl none r
      else if c = '\n' then op :: buf.reverse ++ '\n' :: subDelimsAux op cl none r
      else subDelimsAux op cl (some (c :: buf)) r

/-- Embedding of `re.sub(r"\[.*?\]", "", t)` (non-greedy, leftmost). -/
def subInlineBrackets (s : List Char) : List Char := subDelimsAux '[' ']' none s

/-- Embedding of `re.sub(r"\(.*?\)", "", t)` (non-greedy, leftmost). -/
def subParens (s : List Char) : List Char := subDelimsAux '(' ')' none s

/-- Case-insensitive literal-prefix matcher: `phrase` is given lower-case;
returns the remainder of `s` after the phrase if `s` starts with it
(ignoring case), else `none`. -/
def ciMatch : List Char → List Char → Option (List Char)
  | [], s => some s
  | _ :: _, [] => none
  | p :: ps, c :: cs => if pyLower c = p then ciMatch ps cs else none

/-- Matcher for the part after the colon of `:\s*<phrase>\b` (IGNORECASE):
greedy whitespace, then the literal phrase ignoring case, then a word
boundary.  Returns the remainder after the match. -/
def fluffMatch (phrase s : List Char) : Option (List Char) :=
  match ciMatch phrase (s.dropWhile pySpace) with
  | none => none
  | some rest =>
      match rest with
      | [] => some []
      | c :: _ => if isWordChar c then none else some rest

/-- Fuel-driven scanner for `re.sub(r":\s*<phrase>\b", "", t, re.IGNORECASE)`:
scan left to right; at each `:` try the phrase match and drop the matched
region, continuing after it.  `fuel` bounds recursion depth; it is called
with `fuel = s.length`, which always suffices because the scanner never
grows its argument. -/
def subFluffAux (phrase : List Char) : Nat → List Char → List Char
  | _, [] => []
  | 0, s => s
  | fuel + 1, c :: r =>
      if c = ':' then
        match fluffMatch phrase r with
        | some rest => subFluffAux phrase fuel rest
        | none => ':' :: subFluffAux phrase fuel r
      else c :: subFluffAux phrase fuel r

/-- Embedding of `re.sub(r":\s*<phrase>\b", "", t, flags=re.IGNORECASE)`. -/
def subFluff (phrase s : List Char) : List Char := subFluffAux phrase s.length s

/-- Split a list at the LAST occurrence of `ch`: returns
`(part before, part after)`, or `none` when `ch` does not occur. -/
def splitAtLast (ch : Char) : List Char → Option (List Char × List Char)
  | [] => none
  | c :: r =>
      match splitAtLast ch r with
      | some (p, q) => some (c :: p, q)
      | none => if c = ch then some ([], r) else none

/-- Embedding of `re.match(r"^(.+),\s*(The|A|An)$", t, re.IGNORECASE)`.
The greedy `(.+)` selects the last comma whose tail is whitespace followed
by an article reaching the end; `(.+)` cannot contain a newline.  Returns
`(article as written, group 1)` on success. -/
def commaTheMatch (s : List Char) : Option (List Char × List Char) :=
  match splitAtLast ',' s with
  | none => none
  | some (g1, tail) =>
      let art := tail.dropWhile pySpace
      let lart := art.map pyLower
      if (lart = ['t', 'h', 'e'] || lart = ['a'] || lart = ['a', 'n']) &&
          !g1.isEmpty && !g1.any (· = '\n')
      then some (art, g1) else none

/-- Backtracking tail case of the `by` matcher: when nothing is left for
`(.+)$`, the greedy second `\s+` gives back its final character, provided
the whitespace run keeps at least one character and the donated character
is not a newline (ruled out by `.`). -/
def byTailLast (w2 : List Char) : Option (List Char) :=
  match w2.getLast? with
  | some l => if 2 ≤ w2.length && l ≠ '\n' then some [l] else none
  | none => none

/-- Matcher for `\s+by\s+(.+)$` (IGNORECASE) against the part of the string
following the non-greedy group 1: greedy `\s+`, literal `by` ignoring case,
then `\s+` and a nonempty newline-free group 2; `byTailLast` covers the
backtracking case where the greedy second run must give back one
character.  Returns group 2 on success. -/
def matchByTail (rest : List Char) : Option (List Char) :=
  let w1 := rest.takeWhile pySpace
  let r1 := rest.dropWhile pySpace
  if w1.isEmpty then none
  else
    match r1 with
    | b :: y :: r2 =>
        if pyLower b = 'b' && pyLower y = 'y' then
          let w2 := r2.takeWhile pySpace
          let z := r2.dropWhile pySpace
          if w2.isEmpty then none
          else if !z.isEmpty then (if z.any (· = '\n') then none else some z)
          else byTailLast w2
        else none
    | _ => none

/-- Scanner for `re.match(r"^(.+?)\s+by\s+(.+)$", t, re.IGNORECASE)`: the
non-greedy `(.+?)` grows group 1 one character at a time (newline-free);
the first position whose tail matches `\s+by\s+(.+)$` wins.  `acc` holds
group 1 reversed. -/
def byMatchAux (acc : List Char) : List Char → Option (List Char × List Char)
  | [] => none
  | c :: rest =>
      if c = '\n' then none
      else
        match matchByTail rest with
        | some g2 => some ((c :: acc).reverse, g2)
        | none => byMatchAux (c :: acc) rest

/-- Embedding of `re.match(r"^(.+?)\s+by\s+(.+)$", t, re.IGNORECASE)`,
returning `(group 1, group 2)` on success. -/
def byMatch (s : List Char) : Option (List Char × List Char) := byMatchAux [] s

/-- Embedding of `re.sub(r"[^a-zA-Z0-9\s]", "", x)`: keep only ASCII
alphanumerics and whitespace. -/
def removeNonAlnum (s : List Char) : List Char :=
  s.filter fun c => isAlnumAscii c || pySpace c

/-- Embedding of `re.sub(r"\s+", " ", x)`: replace every maximal whitespace
run by a single space. -/
def collapseWs : List Char → List Char
  | [] => []
  | [c] => [if pySpace c then ' ' else c]
  | c1 :: c2 :: r =>
      if pySpace c1 && pySpace c2 then collapseWs (c2 :: r)
      else (if pySpace c1 then ' ' else c1) :: collapseWs (c2 :: r)

/-- Final cleanup applied to both title and author in
`normalize_book_string`: collapse whitespace, strip, lower-case. -/
def finalClean (s : List Char) : List Char :=
  (pyStrip (collapseWs s)).map pyLower

/-- Stages 2-6 of `normalize_book_string` applied to the stripped title:
bracket stripping, parenthesis stripping, and the three subtitle-fluff
substitutions, in source order. -/
def titleScrub (t0 : List Char) : List Char :=
  let t1 := subLeadingBracket t0
  let t2 := subTrailingBracket t1
  let t3 := subInlineBrackets t2
  let t4 := subParens t3
  let t5 := subFluff ['a', ' ', 'n', 'o', 'v', 'e', 'l'] t4
  let t6 := subFluff ['a', ' ', 'm', 'e', 'm', 'o', 'i', 'r'] t5
  subFluff ['a', ' ', 't', 'h', 'r', 'i', 'l', 'l', 'e', 'r'] t6

/-- Stage 7 of `normalize_book_string`: rewrite a trailing ", The/A/An"
into a leading article. -/
def commaTheStage (t7 : List Char) : List Char :=
  match commaTheMatch t7 with
  | some (art, g1) => art ++ ' ' :: g1
  | none => t7

/-- Stage 8 of `normalize_book_string`: when no author was supplied, split
an embedded "<title> by <author>". -/
def byStage (t8 a0 : List Char) : List Char × List Char :=
  if a0.isEmpty then
    match byMatch t8 with
    | some (g1, g2) => (g1, g2)
    | none => (t8, a0)
  else (t8, a0)

/-- Final combination of `normalize_book_string`: `f"{t} {a}"` when both
cleaned parts are nonempty, else `t or a`. -/
def combineStage (tc ac : List Char) : List Char :=
  if !tc.isEmpty && !ac.isEmpty then tc ++ ' ' :: ac
  else if tc.isEmpty then ac else tc

/-- Core of `normalize_book_string` from scraper/ml_deduplicate.py, on
character lists; follows the source line by line. -/
def normalizeCore (title author : List Char) : List Char :=
  let ta := byStage (commaTheStage (titleScrub (pyStrip title))) (pyStrip author)
  combineStage (finalClean (removeNonAlnum ta.1)) (finalClean (removeNonAlnum ta.2))

/-- Embedding of `normalize_book_string(title, author)` from
scraper/ml_deduplicate.py. -/
def normalize_book_string (title author : String) : String :=
  String.mk (normalizeCore title.data author.data)

/- ─── Data model ──────────────────────────────────────────────────────── -/

/-- RawBookRecord: one scraped book row, after the per-source defaulting in
`load_all_raw_books` (every field present; `member_count` defaults to 0 and
is a non-negative integer per the data model). -/
structure Book where
  title : String
  author : String
  category : String
  club_name : String
  source_type : String
  discussion_url : String
  month : String
  member_count : Nat
deriving DecidableEq, Inhabited

/-- Normalized grouping key of a record, as used by `pre_group_books`. -/
def normKeyOf (b : Book) : String := normalize_book_string b.title b.author

/-- Append a record to the group holding key `k`, creating the group at the
end when the key is new (the insertion-order behaviour of a Python dict). -/
def insertGroup (k : String) (b : Book) :
    List (String × List Book) → List (String × List Book)
  | [] => [(k, [b])]
  | (k', bs) :: rest =>
      if k' = k then (k', bs ++ [b]) :: rest
      else (k', bs) :: insertGroup k b rest

/-- Loop body of `pre_group_books`: skip the record when its normalized
key is empty, otherwise append it to its key's group. -/
def preGroupStep (gs : List (String × List Book)) (b : Book) :
    List (String × List Book) :=
  let key := normKeyOf b
  if key = "" then gs else insertGroup key b gs

/-- Embedding of `pre_group_books` from scraper/ml_deduplicate.py: group
records by normalized key, skipping records whose key is empty; the dict is
modelled as an association list in key-insertion order. -/
def pre_group_books (books : List Book) : List (String × List Book) :=
  books.foldl preGroupStep []

/-- Cluster record consumed by the enrichment stage (the dict shape built
by `build_cluster_from_books` / `load_ml_clusters`). -/
structure Cluster where
  key : String
  representative_title : String
  representative_author : String
  is_currently_reading : Bool
  total_member_count : Nat
  num_clubs : Nat
  books : List Book
deriving DecidableEq

/-- Embedding of `build_cluster_from_books(key, books)` from
scraper/enrich_books.py.  `books[0]` is modelled by `headI` (the source
raises on an empty list; claims about it assume a nonempty list). -/
def build_cluster_from_books (key : String) (books : List Book) : Cluster :=
  let is_cr := books.any fun b => String.mk (b.category.data.map pyLower) = "currently reading"
  let total_members := (books.map Book.member_count).sum
  let num_clubs := (books.map Book.club_name).dedup.length
  let rep := books.headI
  { key := key
    representative_title := rep.title
    representative_author := rep.author
    is_currently_reading := is_cr
    total_member_count := total_members
    num_clubs := num_clubs
    books := books }

/-- CURRENTLY_READING_BONUS from scraper/enrich_books.py. -/
def CURRENTLY_READING_BONUS : Nat := 1000000

/-- CLUB_APPEARANCE_BONUS from scraper/enrich_books.py. -/
def CLUB_APPEARANCE_BONUS : Nat := 500

/-- Embedding of `compute_priority_score(cluster)` from
scraper/enrich_books.py. -/
def compute_priority_score (c : Cluster) : Nat :=
  (if c.is_currently_reading then CURRENTLY_READING_BONUS else 0) +
    c.total_member_count + c.num_clubs * CLUB_APPEARANCE_BONUS

/-- Embedding of `slice_budget(sorted_clusters, quota)` from
scraper/enrich_books.py: Python list slicing `[:q]` / `[q:]` for a
non-negative quota. -/
def slice_budget (sorted_clusters : List Cluster) (quota : Nat) :
    List Cluster × List Cluster :=
  (sorted_clusters.take quota, sorted_clusters.drop quota)

/- ─── Enrichment fetcher (effect model) ──────────────────────────────── -/

/-- EnrichedMetadata: the parsed volume record built by `fetch_single`. -/
structure EnrichedMeta where
  google_books_id : String
  canonical_title : String
  canonical_author : String
  categories : List String
  page_count : Option Int
  published_date : String
  thumbnail : String
  description : String
deriving DecidableEq

/-- One item of the catalog response: `data["items"][i]`, with the field
defaults used by the source (`.get("id", "")`, `.get(...)` inside
`volumeInfo`; an absent `pageCount` is `none`). -/
structure ApiItem where
  id : String
  title : String
  authors : List String
  categories : List String
  pageCount : Option Int
  publishedDate : String
  thumbnail : String
  description : String
deriving DecidableEq

/-- Outcome of the single network interaction attempted by `fetch_single`:
an HTTP 200 with a parsed JSON body, a non-success HTTP status, or a raised
transport error (timeout, connection failure, malformed payload). -/
inductive ApiResponse where
  | success (items : List ApiItem)
  | httpError (status : Nat) (body : String)
  | transportError (msg : String)
deriving DecidableEq

/-- The in-memory cache: key → parsed metadata or an explicit null,
modelled as an association list (first match wins on lookup). -/
def Cache := List (String × Option EnrichedMeta)

/-- Python `key in cache` / `cache[key]` combined: `none` when the key is
absent, `some v` (with `v` possibly the explicit null) when present. -/
def cacheLookup : Cache → String → Option (Option EnrichedMeta)
  | [], _ => none
  | (k, v) :: r, key => if k = key then some v else cacheLookup r key

/-- Python `cache[key] = v`: overwrite in place or append a new key. -/
def cacheInsert : Cache → String → Option EnrichedMeta → Cache
  | [], key, v => [(key, v)]
  | (k, w) :: r, key, v =>
      if k = key then (key, v) :: r else (k, w) :: cacheInsert r key v

/-- Build the result dict of `fetch_single` from the first returned item
(the description is truncated to 300 characters). -/
def metaOfItem (item : ApiItem) : EnrichedMeta :=
  { google_books_id := item.id
    canonical_title := item.title
    canonical_author := String.intercalate ", " item.authors
    categories := item.categories
    page_count := item.pageCount
    published_date := item.publishedDate
    thumbnail := item.thumbnail
    description := String.mk (item.description.data.take 300) }

/-- Observable outcome of one `fetch_single` call: the returned value, the
cache afterwards, and whether a network request / the pre-request delay
happened. -/
structure FetchOutcome where
  result : Option EnrichedMeta
  cache : Cache
  apiCalled : Bool
  slept : Bool

/-- Embedding of `fetch_single` from scraper/enrich_books.py with the
network abstracted as the pre-determined `resp`: a cache hit returns the
stored value before the delay and the request; otherwise the delay and the
request happen, a non-success status or a transport error yields `None`
without touching the cache, an empty result set caches the explicit null,
and a non-empty result set parses, caches and returns the first item. -/
def fetch_single (resp : ApiResponse) (key : String) (cache : Cache) :
    FetchOutcome :=
  match cacheLookup cache key with
  | some v => ⟨v, cache, false, false⟩
  | none =>
      match resp with
      | .httpError _ _ => ⟨none, cache, true, true⟩
      | .transportError _ => ⟨none, cache, true, true⟩
      | .success items =>
          match items with
          | [] => ⟨none, cacheInsert cache key none, true, true⟩
          | item :: _ =>
              let result := metaOfItem item
              ⟨some result, cacheInsert cache key (some result), true, true⟩

/- ─── Output assembly ────────────────────────────────────────────────── -/

/-- One club row of a FinalEntry (the dict built by `_club_entry`). -/
structure ClubEntry where
  club_name : String
  source_type : String
  discussion_url : String
  month : String
  original_title : String
deriving DecidableEq

/-- FinalEntry: the catalog row assembled by `assemble_enriched`.  Raw
fallback entries carry no `google_books_id` key, modelled by `none`. -/
structure Entry where
  google_books_id : Option String
  canonical_title : String
  canonical_author : String
  categories : List String
  page_count : Option Int
  published_date : String
  thumbnail : String
  description : String
  clubs : List ClubEntry
deriving DecidableEq

/-- One element of the `fetched` list: `{"cluster": …, "api_result": …}`. -/
structure FetchedItem where
  cluster : Cluster
  api_result : Option EnrichedMeta
deriving DecidableEq

/-- Embedding of `_club_entry(book)` from scraper/enrich_books.py. -/
def _club_entry (b : Book) : ClubEntry :=
  { club_name := b.club_name
    source_type := b.source_type
    discussion_url := b.discussion_url
    month := b.month
    original_title := b.title }

/-- Embedding of `_make_raw_entry(cluster)` from scraper/enrich_books.py. -/
def _make_raw_entry (c : Cluster) : Entry :=
  { google_books_id := none
    canonical_title := c.representative_title
    canonical_author := c.representative_author
    categories := []
    page_count := none
    published_date := ""
    thumbnail := ""
    description := ""
    clubs := c.books.map _club_entry }

/-- The fresh FinalEntry created on the first occurrence of an external id
(`enriched_by_gid[gid] = {...}` with an empty `clubs` list). -/
def entryOfMeta (gb : EnrichedMeta) : Entry :=
  { google_books_id := some gb.google_books_id
    canonical_title := gb.canonical_title
    canonical_author := gb.canonical_author
    categories := gb.categories
    page_count := gb.page_count
    published_date := gb.published_date
    thumbnail := gb.thumbnail
    description := gb.description
    clubs := [] }

/-- Append club rows to the entry stored under key `k` of an association
list (Python `enriched_by_gid[gid]["clubs"].append(...)`). -/
def addClubs (k : String) (cs : List ClubEntry) :
    List (String × Entry) → List (String × Entry)
  | [] => []
  | (k', e) :: r =>
      if k' = k then (k', { e with clubs := e.clubs ++ cs }) :: r
      else (k', e) :: addClubs k cs r

/-- Python `key in dict` for an association list. -/
def hasKey (k : String) (l : List (String × Entry)) : Bool := l.any (·.1 = k)

/-- One step of the first loop of `assemble_enriched`: state is
(`enriched_by_gid` in insertion order, `no_match`). -/
def gidStep (st : List (String × Entry) × List Entry) (item : FetchedItem) :
    List (String × Entry) × List Entry :=
  match item.api_result with
  | none => (st.1, st.2 ++ [_make_raw_entry item.cluster])
  | some gb =>
      if gb.google_books_id = "" then
        (st.1, st.2 ++ [_make_raw_entry item.cluster])
      else
        let gid := gb.google_books_id
        let l := if hasKey gid st.1 then st.1 else st.1 ++ [(gid, entryOfMeta gb)]
        (addClubs gid (item.cluster.books.map _club_entry) l, st.2)

/-- Falsiness of `entry.get("page_count")`: Python treats both `None` and
`0` as falsy. -/
def pcFalsy : Option Int → Bool
  | none => true
  | some n => n = 0

/-- The merge key of the second pass:
`re.sub(r"[^a-z0-9\s]", "", s.lower()).strip()` on title and author,
joined with `|`. -/
def mergeNorm (s : String) : List Char :=
  pyStrip ((s.data.map pyLower).filter fun c => isLowerAlnum c || pySpace c)

/-- Combined `f"{norm_title}|{norm_author}"` merge key. -/
def mergeKeyOf (e : Entry) : List Char :=
  mergeNorm e.canonical_title ++ '|' :: mergeNorm e.canonical_author

/-- Merging a later entry into the stored base entry of the same merge key:
clubs are appended; categories / page_count / thumbnail are backfilled only
when falsy on the base and truthy on the later entry. -/
def mergeInto (e : Entry) : Entry → Entry
  | base =>
      { base with
        clubs := base.clubs ++ e.clubs
        categories :=
          if base.categories.isEmpty && !e.categories.isEmpty then e.categories
          else base.categories
        page_count :=
          if pcFalsy base.page_count && !pcFalsy e.page_count then e.page_count
          else base.page_count
        thumbnail :=
          if base.thumbnail = "" && !(e.thumbnail = "") then e.thumbnail
          else base.thumbnail }

/-- Update the entry stored under merge key `k`. -/
def updateMerge (k : List Char) (e : Entry) :
    List (List Char × Entry) → List (List Char × Entry)
  | [] => []
  | (k', base) :: r =>
      if k' = k then (k', mergeInto e base) :: r
      else (k', base) :: updateMerge k e r

/-- One step of the final-merge loop of `assemble_enriched`. -/
def mergeStep (m : List (List Char × Entry)) (e : Entry) :
    List (List Char × Entry) :=
  let k := mergeKeyOf e
  if m.any (·.1 = k) then updateMerge k e m else m ++ [(k, e)]

/-- Sort key rank: `0 if c["source_type"] == "Reddit" else 1`. -/
def clubRank (c : ClubEntry) : Nat := if c.source_type = "Reddit" then 0 else 1

/-- Strict comparison of the Python sort keys
`(rank, club_name)` (lexicographic tuple order). -/
def clubLt (c c' : ClubEntry) : Bool :=
  clubRank c < clubRank c' ||
    (clubRank c = clubRank c' && c.club_name < c'.club_name)

/-- Stable insertion of `x` into a sorted list: before the first strictly
greater element, after all equal ones. -/
def stableInsert (lt : ClubEntry → ClubEntry → Bool) (x : ClubEntry) :
    List ClubEntry → List ClubEntry
  | [] => [x]
  | y :: r => if lt x y then x :: y :: r else y :: stableInsert lt x r

/-- Stable sort (insertion sort) modelling Python's stable `list.sort`. -/
def pySort (lt : ClubEntry → ClubEntry → Bool) (l : List ClubEntry) :
    List ClubEntry :=
  l.foldl (fun acc c => stableInsert lt c acc) []

/-- Embedding of `assemble_enriched(fetched, remainder)` from
scraper/enrich_books.py: group API results by external id, turn misses and
the remainder into raw entries, merge everything by normalized canonical
title|author, and sort each entry's clubs (Reddit first, then by club
name; Python's sort is stable). -/
def assemble_enriched (fetched : List FetchedItem) (remainder : List Cluster) :
    List Entry :=
  let st := fetched.foldl gidStep ([], [])
  let no_match := st.2 ++ remainder.map _make_raw_entry
  let entries := st.1.map Prod.snd ++ no_match
  let final_merged := entries.foldl mergeStep []
  let all_enriched := final_merged.map Prod.snd
  all_enriched.map fun e => { e with clubs := pySort clubLt e.clubs }

/- ─── Character-level lemmas ─────────────────────────────────────────── -/

/-- Characters are determined by their code points. -/
theorem charEq_of_toNat {c d : Char} (h : c.toNat = d.toNat) : c = d :=
  Char.ext (UInt32.ext h)

/-- Code point of `Char.ofNat` for valid (BMP) code points. -/
theorem toNat_ofNat_valid (n : Nat) (h : n < 55296) : (Char.ofNat n).toNat = n := by
  have hv : Nat.isValidChar n := Or.inl h
  simp [Char.ofNat, Char.ofNatAux, Char.toNat, dif_pos hv, UInt32.toNat]

/-- Code points are below the surrogate range or the BMP bound; in
particular every code point is below 1114112. -/
theorem toNat_lt (c : Char) : c.toNat < 1114112 := by
  have := c.valid
  rcases this with h | h
  · exact lt_trans h (by norm_num)
  · exact h.2

/-- Code point of `pyLower`. -/
theorem toNat_pyLower (c : Char) :
    (pyLower c).toNat =
      if 65 ≤ c.toNat ∧ c.toNat ≤ 90 then c.toNat + 32 else c.toNat := by
  unfold pyLower
  split
  · next h => exact toNat_ofNat_valid _ (by omega)
  · rfl

/-- Code point of `pyUpper`. -/
theorem toNat_pyUpper (c : Char) :
    (pyUpper c).toNat =
      if 97 ≤ c.toNat ∧ c.toNat ≤ 122 then c.toNat - 32 else c.toNat := by
  unfold pyUpper
  split
  · next h => exact toNat_ofNat_valid _ (by omega)
  · rfl

/-- Lower-casing is idempotent. -/
theorem pyLower_pyLower (c : Char) : pyLower (pyLower c) = pyLower c := by
  apply charEq_of_toNat
  rw [toNat_pyLower, toNat_pyLower]
  split_ifs <;> omega

/-- Lower-casing after upper-casing equals lower-casing. -/
theorem pyLower_pyUpper (c : Char) : pyLower (pyUpper c) = pyLower c := by
  apply charEq_of_toNat
  rw [toNat_pyLower, toNat_pyUpper, toNat_pyLower]
  split_ifs <;> omega

/-- Whitespace is stable under case folding. -/
theorem pySpace_pyLower (c : Char) : pySpace (pyLower c) = pySpace c := by
  unfold pySpace
  rw [decide_eq_decide, toNat_pyLower]
  split <;> omega

/-- The alphanumeric class is stable under case folding. -/
theorem isAlnumAscii_pyLower (c : Char) : isAlnumAscii (pyLower c) = isAlnumAscii c := by
  unfold isAlnumAscii
  rw [decide_eq_decide, toNat_pyLower]
  split <;> omega

/-- Word characters are stable under case folding. -/
theorem isWordChar_pyLower (c : Char) : isWordChar (pyLower c) = isWordChar c := by
  unfold isWordChar
  rw [isAlnumAscii_pyLower]
  congr 1
  rw [decide_eq_decide, toNat_pyLower]
  split <;> omega

/-- Comparison against a fixed character that is not a letter is stable
under case folding. -/
theorem eq_char_pyLower (k : Char) (hk : ¬(97 ≤ k.toNat ∧ k.toNat ≤ 122))
    (hk2 : ¬(65 ≤ k.toNat ∧ k.toNat ≤ 90)) (c : Char) :
    (pyLower c = k) = (c = k) := by
  simp only [eq_iff_iff]
  constructor
  · intro h
    apply charEq_of_toNat
    have := congrArg Char.toNat h
    rw [toNat_pyLower] at this
    split at this <;> omega
  · intro h
    subst h
    apply charEq_of_toNat
    rw [toNat_pyLower]
    split <;> omega

/- ─── Priority scoring (claim C1) ────────────────────────────────────── -/

/-- C1: every currently-reading cluster outscores every non-currently-
reading cluster whose total member count plus 500 times its club count
stays below 1,000,000; `compute_priority_score` then ranks the
currently-reading cluster strictly higher. -/
theorem cr_cluster_outranks (c1 c2 : Cluster)
    (h1 : c1.is_currently_reading = true)
    (h2 : c2.is_currently_reading = false)
    (hbound : c2.total_member_count + 500 * c2.num_clubs < 1000000) :
    compute_priority_score c2 < compute_priority_score c1 := by
  simp [compute_priority_score, CURRENTLY_READING_BONUS,
    CLUB_APPEARANCE_BONUS, h1, h2]
  omega

/-- Concrete currently-reading cluster used in witnesses. -/
def clusterW1 : Cluster := ⟨"k1", "Hot Book", "A", true, 5, 1, []⟩

/-- Concrete non-currently-reading cluster used in witnesses. -/
def clusterW2 : Cluster := ⟨"k2", "Popular Book", "B", false, 50000, 3, []⟩

/-- Witness for C1 at concrete clusters. -/
theorem cr_cluster_outranks_witness :
    (clusterW1.is_currently_reading = true ∧
      clusterW2.is_currently_reading = false ∧
      clusterW2.total_member_count + 500 * clusterW2.num_clubs < 1000000) ∧
    compute_priority_score clusterW2 < compute_priority_score clusterW1 :=
  ⟨⟨by decide, by decide, by decide⟩,
    cr_cluster_outranks clusterW1 clusterW2 (by decide) (by decide) (by decide)⟩

/- ─── Budget slicing (claim C8) ──────────────────────────────────────── -/

/-- C8: `slice_budget` splits a cluster list without reordering: the fetch
part has length `min quota length`, the two parts concatenate back to the
input, and a quota at least the length leaves an empty remainder. -/
theorem slice_budget_spec (l : List Cluster) (q : Nat) :
    (slice_budget l q).1.length = min q l.length ∧
    (slice_budget l q).1 ++ (slice_budget l q).2 = l ∧
    (l.length ≤ q → (slice_budget l q).2 = []) := by
  refine ⟨?_, ?_, ?_⟩
  · simp [slice_budget, List.length_take]
  · simp [slice_budget, List.take_append_drop]
  · intro h
    simp [slice_budget, List.drop_eq_nil_iff.mpr h]

/-- Witness for C8 at a concrete list and quota. -/
theorem slice_budget_spec_witness :
    (slice_budget [clusterW1, clusterW2, clusterW1] 2).1.length =
        min 2 [clusterW1, clusterW2, clusterW1].length ∧
      (slice_budget [clusterW1, clusterW2, clusterW1] 2).1 ++
          (slice_budget [clusterW1, clusterW2, clusterW1] 2).2 =
        [clusterW1, clusterW2, clusterW1] ∧
      ([clusterW1, clusterW2, clusterW1].length ≤ 2 →
        (slice_budget [clusterW1, clusterW2, clusterW1] 2).2 = []) :=
  slice_budget_spec [clusterW1, clusterW2, clusterW1] 2

/- ─── Fetch, cache hit (claim C4) ────────────────────────────────────── -/

/-- C4: when the cluster key is present in the cache — even mapped to the
explicit null — `fetch_single` returns the cached value unchanged and
performs no network call, no delay and no cache write. -/
theorem fetch_single_cache_hit (resp : ApiResponse) (key : String)
    (cache : Cache) (v : Option EnrichedMeta)
    (h : cacheLookup cache key = some v) :
    fetch_single resp key cache = ⟨v, cache, false, false⟩ := by
  unfold fetch_single
  rw [h]

/-- Witness for C4: a cache pre-populated with "k1" mapped to the explicit
null short-circuits and returns null. -/
theorem fetch_single_cache_hit_witness :
    cacheLookup [("k1", (none : Option EnrichedMeta))] "k1" = some none ∧
    fetch_single (.success []) "k1" [("k1", none)] =
      ⟨none, [("k1", none)], false, false⟩ :=
  ⟨by decide,
    fetch_single_cache_hit (.success []) "k1" [("k1", none)] none (by decide)⟩

/- ─── Fetch, cache miss (claim C5) ───────────────────────────────────── -/

/-- C5: on a cache miss, an empty result set stores the explicit null
under the cluster key and returns null, while a non-success HTTP status or
a transport error returns null and leaves the cache untouched (no entry is
written, so the key stays eligible for a retry). -/
theorem fetch_single_cache_miss (key : String) (cache : Cache)
    (h : cacheLookup cache key = none) :
    fetch_single (.success []) key cache =
        ⟨none, cacheInsert cache key none, true, true⟩ ∧
      (∀ status body, fetch_single (.httpError status body) key cache =
        ⟨none, cache, true, true⟩) ∧
      (∀ msg, fetch_single (.transportError msg) key cache =
        ⟨none, cache, true, true⟩) := by
  refine ⟨?_, fun status body => ?_, fun msg => ?_⟩ <;>
    · unfold fetch_single
      rw [h]

/-- Witness for C5 at a concrete empty cache. -/
theorem fetch_single_cache_miss_witness :
    cacheLookup ([] : Cache) "k1" = none ∧
    (fetch_single (.success []) "k1" [] =
        ⟨none, cacheInsert [] "k1" none, true, true⟩ ∧
      (∀ status body, fetch_single (.httpError status body) "k1" [] =
        ⟨none, [], true, true⟩) ∧
      (∀ msg, fetch_single (.transportError msg) "k1" [] =
        ⟨none, [], true, true⟩)) :=
  ⟨by decide, fetch_single_cache_miss "k1" [] (by decide)⟩

/- ─── Club counting (claim C7) ───────────────────────────────────────── -/

/-- Concrete member records refuting C7 as stated: the same club name on
two different platforms. -/
def c7book1 : Book :=
  ⟨"T", "A", "Previously Read", "Club A", "Reddit", "", "", 0⟩

/-- Second record for the C7 counterexample. -/
def c7book2 : Book :=
  ⟨"T", "A", "Previously Read", "Club A", "Goodreads", "", "", 0⟩

/-- Counterexample to C7 as stated: `build_cluster_from_books` counts
distinct club names only, so two records sharing a club name but differing
in source_type yield `num_clubs = 1` while there are 2 distinct
(club_name, source_type) pairs. -/
theorem num_clubs_not_pair_count :
    (build_cluster_from_books "k" [c7book1, c7book2]).num_clubs ≠
      ([c7book1, c7book2].map (fun b => (b.club_name, b.source_type))).dedup.length := by
  decide

/-- C7 (amended): the `num_clubs` field of a cluster built by
`build_cluster_from_books` equals the number of distinct club NAMES among
its member records (the source ignores `source_type` here). -/
theorem build_cluster_num_clubs (key : String) (books : List Book) :
    (build_cluster_from_books key books).num_clubs =
      (books.map Book.club_name).toFinset.card := by
  simp [build_cluster_from_books, List.card_toFinset]

/- ─── Club conservation (claim C10) ──────────────────────────────────── -/

/-- Total number of club rows across a list of final entries. -/
def sumClubs (l : List Entry) : Nat := (l.map fun e => e.clubs.length).sum

/-- Total number of club rows across a keyed entry list. -/
def sumClubsK {κ : Type} (l : List (κ × Entry)) : Nat :=
  (l.map fun p => p.2.clubs.length).sum

/-- Total number of member records across a list of clusters. -/
def sumBooks (l : List Cluster) : Nat := (l.map fun c => c.books.length).sum

/-- Total number of member records across the fetched list. -/
def sumBooksF (l : List FetchedItem) : Nat :=
  (l.map fun it => it.cluster.books.length).sum

/-- `addClubs` adds the appended rows exactly once when the key is present
and nothing otherwise. -/
theorem sumClubsK_addClubs (k : String) (cs : List ClubEntry) :
    ∀ l : List (String × Entry),
      sumClubsK (addClubs k cs l) =
        sumClubsK l + (if hasKey k l then cs.length else 0) := by
  intro l
  induction l with
  | nil => simp [addClubs, hasKey, sumClubsK]
  | cons p r ih =>
      obtain ⟨k', e⟩ := p
      by_cases hk : k' = k
      · subst hk
        simp [addClubs, hasKey, sumClubsK]
        omega
      · simp only [addClubs, if_neg hk, hasKey, List.any_cons, sumClubsK,
          List.map_cons, List.sum_cons]
        simp only [hasKey, sumClubsK] at ih
        rw [ih]
        by_cases hany : (r.any fun x => decide (x.1 = k)) = true
        · simp [hany]
          omega
        · simp [hany, decide_eq_false hk]

/-- Appending a keyed entry adds its club count. -/
theorem sumClubsK_append {κ : Type} (l m : List (κ × Entry)) :
    sumClubsK (l ++ m) = sumClubsK l + sumClubsK m := by
  simp [sumClubsK]

/-- A raw entry carries one club row per member record. -/
theorem make_raw_entry_clubs (c : Cluster) :
    (_make_raw_entry c).clubs.length = c.books.length := by
  simp [_make_raw_entry]

/-- One `gidStep` adds exactly the item's member records to the combined
club total of the two accumulators. -/
theorem gidStep_measure (st : List (String × Entry) × List Entry)
    (item : FetchedItem) :
    sumClubsK (gidStep st item).1 + sumClubs (gidStep st item).2 =
      sumClubsK st.1 + sumClubs st.2 + item.cluster.books.length := by
  unfold gidStep
  match hapi : item.api_result with
  | none =>
      simp [sumClubs, make_raw_entry_clubs]
      omega
  | some gb =>
      by_cases hgid : gb.google_books_id = ""
      · simp [hgid, sumClubs, make_raw_entry_clubs]
        omega
      · simp only [hgid, if_neg, reduceIte]
        by_cases hmem : hasKey gb.google_books_id st.1
        · simp only [hmem, if_pos, reduceIte]
          rw [sumClubsK_addClubs, if_pos hmem]
          simp [List.length_map]
          omega
        · simp only [hmem, Bool.false_eq_true, reduceIte]
          rw [sumClubsK_addClubs]
          have hmem2 : hasKey gb.google_books_id
              (st.1 ++ [(gb.google_books_id, entryOfMeta gb)]) = true := by
            simp [hasKey]
          rw [if_pos hmem2, sumClubsK_append]
          simp [sumClubsK, entryOfMeta]
          omega

/-- Folding `gidStep` over the fetched list conserves club rows. -/
theorem gidFold_measure (items : List FetchedItem) :
    ∀ st, sumClubsK (items.foldl gidStep st).1 +
        sumClubs (items.foldl gidStep st).2 =
      sumClubsK st.1 + sumClubs st.2 + sumBooksF items := by
  induction items with
  | nil => intro st; simp [sumBooksF]
  | cons item rest ih =>
      intro st
      simp only [List.foldl_cons]
      rw [ih (gidStep st item), gidStep_measure]
      simp [sumBooksF]
      omega

/-- `updateMerge` adds the entry's rows exactly once when the key is
present and nothing otherwise. -/
theorem sumClubsK_updateMerge (k : List Char) (e : Entry) :
    ∀ m : List (List Char × Entry),
      sumClubsK (updateMerge k e m) =
        sumClubsK m + (if m.any (·.1 = k) then e.clubs.length else 0) := by
  intro m
  induction m with
  | nil => simp [updateMerge, sumClubsK]
  | cons p r ih =>
      obtain ⟨k', base⟩ := p
      by_cases hk : k' = k
      · subst hk
        simp [updateMerge, sumClubsK, mergeInto]
        omega
      · simp only [updateMerge, if_neg hk, List.any_cons, sumClubsK,
          List.map_cons, List.sum_cons]
        simp only [sumClubsK] at ih
        rw [ih]
        by_cases hany : (r.any fun x => decide (x.1 = k)) = true
        · simp [hany]
          omega
        · simp [hany, decide_eq_false hk]

/-- One `mergeStep` adds exactly the entry's club rows. -/
theorem mergeStep_measure (m : List (List Char × Entry)) (e : Entry) :
    sumClubsK (mergeStep m e) = sumClubsK m + e.clubs.length := by
  unfold mergeStep
  by_cases hmem : m.any (·.1 = mergeKeyOf e)
  · simp only [hmem, reduceIte]
    rw [sumClubsK_updateMerge, if_pos hmem]
  · simp only [hmem, Bool.false_eq_true, reduceIte]
    rw [sumClubsK_append]
    simp [sumClubsK]

/-- Folding `mergeStep` conserves club rows. -/
theorem mergeFold_measure (entries : List Entry) :
    ∀ m, sumClubsK (entries.foldl mergeStep m) =
      sumClubsK m + sumClubs entries := by
  induction entries with
  | nil => intro m; simp [sumClubs]
  | cons e rest ih =>
      intro m
      simp only [List.foldl_cons]
      rw [ih (mergeStep m e), mergeStep_measure]
      simp [sumClubs]
      omega

/-- `stableInsert` grows the list by one. -/
theorem stableInsert_length (lt : ClubEntry → ClubEntry → Bool) (x : ClubEntry) :
    ∀ l, (stableInsert lt x l).length = l.length + 1
  | [] => rfl
  | y :: r => by
      simp only [stableInsert]
      split
      · simp
      · simp [stableInsert_length lt x r]

/-- The stable sort preserves length. -/
theorem pySort_length (lt : ClubEntry → ClubEntry → Bool) (l : List ClubEntry) :
    (pySort lt l).length = l.length := by
  unfold pySort
  suffices h : ∀ acc : List ClubEntry,
      (l.foldl (fun acc c => stableInsert lt c acc) acc).length =
        acc.length + l.length by
    simpa using h []
  induction l with
  | nil => intro acc; simp
  | cons c rest ih =>
      intro acc
      simp only [List.foldl_cons]
      rw [ih (stableInsert lt c acc), stableInsert_length]
      simp [List.length_cons]
      omega

/-- Entry lists concatenate additively for club counting. -/
theorem sumClubs_append (a b : List Entry) :
    sumClubs (a ++ b) = sumClubs a + sumClubs b := by
  simp [sumClubs]

/-- Forgetting the keys preserves the club count. -/
theorem sumClubs_map_snd {K : Type} (m : List (K × Entry)) :
    sumClubs (m.map Prod.snd) = sumClubsK m := by
  simp only [sumClubs, sumClubsK, List.map_map, Function.comp_def]

/-- C10: `assemble_enriched` neither loses nor duplicates club
interactions: the total number of club rows across all final entries
equals the total number of member records across all fetched and
remainder clusters. -/
theorem assemble_enriched_conserves_clubs (fetched : List FetchedItem)
    (remainder : List Cluster) :
    sumClubs (assemble_enriched fetched remainder) =
      sumBooksF fetched + sumBooks remainder := by
  have hsort : ∀ l : List Entry,
      sumClubs (l.map fun e => { e with clubs := pySort clubLt e.clubs }) =
        sumClubs l := by
    intro l
    simp only [sumClubs, List.map_map, Function.comp_def, pySort_length]
  have hraw : sumClubs (remainder.map _make_raw_entry) = sumBooks remainder := by
    simp only [sumClubs, sumBooks, List.map_map, Function.comp_def,
      make_raw_entry_clubs]
  have hfold := gidFold_measure fetched ([], [])
  have hz1 : sumClubsK ([] : List (String × Entry)) = 0 := rfl
  have hz2 : sumClubs ([] : List Entry) = 0 := rfl
  rw [hz1, hz2] at hfold
  have hz3 : sumClubsK ([] : List (List Char × Entry)) = 0 := rfl
  simp only [assemble_enriched]
  rw [hsort, sumClubs_map_snd, mergeFold_measure, hz3, sumClubs_append,
    sumClubs_append, sumClubs_map_snd, hraw]
  omega

/- ─── Merging by external id (claim C3) ──────────────────────────────── -/

/-- C3 (amended): merging a fetched list of exactly two items that resolved
to the same nonempty external id (with an empty remainder) produces one
single FinalEntry: its metadata comes from the first occurrence and is not
overwritten by the second, and its clubs list has length equal to the sum
of the two clusters' book counts. -/
theorem assemble_two_same_gid (c1 c2 : Cluster) (gb1 gb2 : EnrichedMeta)
    (hg : gb2.google_books_id = gb1.google_books_id)
    (hne : gb1.google_books_id ≠ "") :
    assemble_enriched [⟨c1, some gb1⟩, ⟨c2, some gb2⟩] [] =
      [{ google_books_id := some gb1.google_books_id
         canonical_title := gb1.canonical_title
         canonical_author := gb1.canonical_author
         categories := gb1.categories
         page_count := gb1.page_count
         published_date := gb1.published_date
         thumbnail := gb1.thumbnail
         description := gb1.description
         clubs := pySort clubLt ((c1.books ++ c2.books).map _club_entry) }] ∧
    (pySort clubLt ((c1.books ++ c2.books).map _club_entry)).length =
      c1.books.length + c2.books.length := by
  constructor
  · simp [assemble_enriched, gidStep, hasKey, addClubs, entryOfMeta,
      mergeStep, hne, hg]
  · rw [pySort_length]
    simp

/-- Member record for the C3 counterexample. -/
def c3book (cn : String) : Book :=
  ⟨"T", "A", "Previously Read", cn, "Goodreads", "", "", 0⟩

/-- Single-record cluster for the C3 counterexample. -/
def c3cluster (t : String) (b : Book) : Cluster := ⟨t, t, "y", false, 0, 1, [b]⟩

/-- Metadata record for the C3 counterexample. -/
def c3meta (g t : String) : EnrichedMeta := ⟨g, t, "y", [], none, "", "", ""⟩

/-- Fetched list refuting C3 as universally stated: the first two items
carry non-null api_results with the same external id "gid_1" (one book per
cluster), while a third item resolves to a different id but to the same
canonical title and author. -/
def c3fetched : List FetchedItem :=
  [⟨c3cluster "x" (c3book "c1"), some (c3meta "gid_1" "x")⟩,
   ⟨c3cluster "x2" (c3book "c2"), some (c3meta "gid_1" "x")⟩,
   ⟨c3cluster "x3" (c3book "c3"), some (c3meta "g2" "x")⟩]

/-- Counterexample to C3 as stated: on `c3fetched` the two "gid_1" clusters
hold 1 + 1 = 2 books, but the final merge pass folds the third cluster into
the same FinalEntry, so the single resulting entry carries 3 club rows,
not 2. -/
theorem assemble_same_gid_counterexample :
    (assemble_enriched c3fetched []).map (fun e => e.clubs.length) = [3] ∧
    (c3cluster "x" (c3book "c1")).books.length +
        (c3cluster "x2" (c3book "c2")).books.length = 2 := by
  constructor
  · simp [c3fetched, c3book, c3cluster, c3meta, assemble_enriched, gidStep,
      entryOfMeta, hasKey, addClubs, mergeStep, mergeKeyOf, mergeNorm,
      updateMerge, mergeInto, pySort, stableInsert, clubLt, clubRank,
      _club_entry, pyStrip, dropTrailing, Function.comp_def]
    decide
  · rfl

/-- Metadata record for the C3 witness. -/
def c3wMeta : EnrichedMeta :=
  ⟨"gid_1", "1984", "George Orwell", [], none, "", "", ""⟩

/-- Witness for the C3 amended theorem at concrete clusters. -/
theorem assemble_two_same_gid_witness :
    (c3wMeta.google_books_id = c3wMeta.google_books_id ∧
      c3wMeta.google_books_id ≠ "") ∧
    (assemble_enriched [⟨c3cluster "x" (c3book "c1"), some c3wMeta⟩,
        ⟨c3cluster "x2" (c3book "c2"), some c3wMeta⟩] [] =
      [{ google_books_id := some c3wMeta.google_books_id
         canonical_title := c3wMeta.canonical_title
         canonical_author := c3wMeta.canonical_author
         categories := c3wMeta.categories
         page_count := c3wMeta.page_count
         published_date := c3wMeta.published_date
         thumbnail := c3wMeta.thumbnail
         description := c3wMeta.description
         clubs := pySort clubLt
           (((c3cluster "x" (c3book "c1")).books ++
              (c3cluster "x2" (c3book "c2")).books).map _club_entry) }] ∧
      (pySort clubLt
          (((c3cluster "x" (c3book "c1")).books ++
             (c3cluster "x2" (c3book "c2")).books).map _club_entry)).length =
        (c3cluster "x" (c3book "c1")).books.length +
          (c3cluster "x2" (c3book "c2")).books.length) :=
  ⟨⟨rfl, by decide⟩, assemble_two_same_gid _ _ _ _ rfl (by decide)⟩

/- ─── Pre-grouping partition (claim C2) ──────────────────────────────── -/

/-- Invariant of the grouping loop: after processing `processed`, every
group has a nonempty key and holds exactly the processed records with that
normalized key in input order, keys are pairwise distinct, and every
processed record with a nonempty key has its key among the groups. -/
def groupsInv (processed : List Book) (gs : List (String × List Book)) : Prop :=
  (∀ p ∈ gs, p.1 ≠ "" ∧ p.2 = processed.filter (fun b => normKeyOf b = p.1)) ∧
  (gs.map Prod.fst).Nodup ∧
  (∀ b ∈ processed, normKeyOf b ≠ "" → normKeyOf b ∈ gs.map Prod.fst)

/-- `insertGroup` with a fresh key appends a new singleton group. -/
theorem insertGroup_not_mem (k : String) (b : Book) :
    ∀ gs : List (String × List Book), k ∉ gs.map Prod.fst →
      insertGroup k b gs = gs ++ [(k, [b])] := by
  intro gs
  induction gs with
  | nil => intro _; rfl
  | cons p r ih =>
      intro h
      simp only [List.map_cons, List.mem_cons] at h
      push_neg at h
      obtain ⟨h1, h2⟩ := h
      obtain ⟨k', bs⟩ := p
      simp only [insertGroup]
      rw [if_neg (Ne.symm h1), ih h2]
      rfl

/-- Updating by key leaves lists without that key unchanged. -/
theorem map_update_id (k : String) (b : Book) :
    ∀ r : List (String × List Book), k ∉ r.map Prod.fst →
      r.map (fun p => if p.1 = k then (p.1, p.2 ++ [b]) else p) = r := by
  intro r
  induction r with
  | nil => intro _; rfl
  | cons p rest ih =>
      intro h
      simp only [List.map_cons, List.mem_cons] at h
      push_neg at h
      obtain ⟨h1, h2⟩ := h
      simp only [List.map_cons]
      rw [if_neg (Ne.symm h1), ih h2]

/-- `insertGroup` with a present key appends the record to exactly that
key's group. -/
theorem insertGroup_mem (k : String) (b : Book) :
    ∀ gs : List (String × List Book), (gs.map Prod.fst).Nodup →
      k ∈ gs.map Prod.fst →
      insertGroup k b gs =
        gs.map (fun p => if p.1 = k then (p.1, p.2 ++ [b]) else p) := by
  intro gs
  induction gs with
  | nil => intro _ h; simp at h
  | cons p r ih =>
      intro hnd hmem
      obtain ⟨k', bs⟩ := p
      simp only [List.map_cons, List.nodup_cons] at hnd
      obtain ⟨hk', hndr⟩ := hnd
      by_cases hk : k' = k
      · subst hk
        simp [insertGroup, map_update_id _ b r hk']
      · have hmr : k ∈ r.map Prod.fst := by
          simp only [List.map_cons, List.mem_cons] at hmem
          rcases hmem with h | h
          · exact absurd h.symm hk
          · exact h
        simp only [insertGroup, List.map_cons]
        rw [if_neg hk, if_neg hk, ih hndr hmr]

/-- Keys are unchanged when a record is appended to an existing group. -/
theorem map_update_keys (k : String) (b : Book)
    (gs : List (String × List Book)) :
    (gs.map (fun p => if p.1 = k then (p.1, p.2 ++ [b]) else p)).map Prod.fst =
      gs.map Prod.fst := by
  induction gs with
  | nil => rfl
  | cons p r ih =>
      simp only [List.map_cons, ih]
      by_cases hk : p.1 = k
      · simp [hk]
      · simp [hk]

/-- One grouping step preserves the invariant. -/
theorem preGroupStep_inv (pre : List Book) (gs : List (String × List Book))
    (b : Book) (h : groupsInv pre gs) :
    groupsInv (pre ++ [b]) (preGroupStep gs b) := by
  obtain ⟨h1, h2, h3⟩ := h
  unfold preGroupStep
  by_cases hkey : normKeyOf b = ""
  · simp only [hkey, if_pos rfl]
    refine ⟨?_, h2, ?_⟩
    · intro p hp
      obtain ⟨hne, heq⟩ := h1 p hp
      refine ⟨hne, ?_⟩
      rw [List.filter_append, heq]
      have : List.filter (fun b' => normKeyOf b' = p.1) [b] = [] := by
        simp [hkey, Ne.symm hne]
      rw [this, List.append_nil]
    · intro b' hb' hne
      rcases List.mem_append.mp hb' with h | h
      · exact h3 b' h hne
      · simp only [List.mem_singleton] at h
        subst h
        exact absurd hkey hne
  · rw [if_neg hkey]
    by_cases hmem : normKeyOf b ∈ gs.map Prod.fst
    · rw [insertGroup_mem _ _ _ h2 hmem]
      refine ⟨?_, ?_, ?_⟩
      · intro p hp
        rw [List.mem_map] at hp
        obtain ⟨q, hq, hpq⟩ := hp
        obtain ⟨hne, heq⟩ := h1 q hq
        by_cases hqk : q.1 = normKeyOf b
        · rw [if_pos hqk] at hpq
          subst hpq
          refine ⟨hne, ?_⟩
          rw [List.filter_append, heq, hqk]
          simp
        · rw [if_neg hqk] at hpq
          subst hpq
          refine ⟨hne, ?_⟩
          rw [List.filter_append, heq]
          have : List.filter (fun b' => normKeyOf b' = q.1) [b] = [] := by
            simp [Ne.symm hqk]
          rw [this, List.append_nil]
      · rw [map_update_keys]
        exact h2
      · intro b' hb' hne
        rw [map_update_keys]
        rcases List.mem_append.mp hb' with h | h
        · exact h3 b' h hne
        · simp only [List.mem_singleton] at h
          subst h
          exact hmem
    · rw [insertGroup_not_mem _ _ _ hmem]
      refine ⟨?_, ?_, ?_⟩
      · intro p hp
        rcases List.mem_append.mp hp with h | h
        · obtain ⟨hne, heq⟩ := h1 p h
          refine ⟨hne, ?_⟩
          rw [List.filter_append, heq]
          have hpk : p.1 ≠ normKeyOf b := by
            intro hc
            exact hmem (hc ▸ (List.mem_map.mpr ⟨p, h, rfl⟩))
          have : List.filter (fun b' => normKeyOf b' = p.1) [b] = [] := by
            simp [Ne.symm hpk]
          rw [this, List.append_nil]
        · simp only [List.mem_singleton] at h
          subst h
          refine ⟨hkey, ?_⟩
          have hpre : List.filter (fun b' => normKeyOf b' = normKeyOf b) pre = [] := by
            rw [List.filter_eq_nil_iff]
            intro b' hb'
            simp only [decide_eq_true_eq]
            intro hc
            exact hmem (hc ▸ h3 b' hb' (hc.symm ▸ hkey))
          rw [List.filter_append, hpre]
          simp
      · simp only [List.map_append, List.map_cons, List.map_nil]
        rw [List.nodup_append]
        refine ⟨h2, List.nodup_singleton _, ?_⟩
        intro k hk
        simp only [List.mem_singleton]
        intro hc
        exact hmem (hc ▸ hk)
      · intro b' hb' hne
        simp only [List.map_append, List.map_cons, List.map_nil]
        rcases List.mem_append.mp hb' with h | h
        · exact List.mem_append.mpr (Or.inl (h3 b' h hne))
        · simp only [List.mem_singleton] at h
          subst h
          exact List.mem_append.mpr (Or.inr (List.mem_singleton.mpr rfl))

/-- The grouping fold preserves the invariant. -/
theorem preGroup_fold_inv :
    ∀ (books pre : List Book) (gs : List (String × List Book)),
      groupsInv pre gs →
      groupsInv (pre ++ books) (books.foldl preGroupStep gs) := by
  intro books
  induction books with
  | nil => intro pre gs h; simpa using h
  | cons b rest ih =>
      intro pre gs h
      have step := preGroupStep_inv pre gs b h
      have := ih (pre ++ [b]) (preGroupStep gs b) step
      simpa [List.append_assoc] using this

/-- The grouping invariant holds of `pre_group_books`. -/
theorem pre_group_books_inv (books : List Book) :
    groupsInv books (pre_group_books books) := by
  have h0 : groupsInv [] [] := by
    refine ⟨?_, ?_, ?_⟩ <;> simp [groupsInv]
  have := preGroup_fold_inv books [] [] h0
  simpa [pre_group_books] using this

/-- Blank inputs normalize to the empty key: as soon as stripping removes
everything from title and author, every later stage is a no-op. -/
theorem normalizeCore_blank (t a : List Char) (h1 : pyStrip t = [])
    (h2 : pyStrip a = []) : normalizeCore t a = [] := by
  unfold normalizeCore
  rw [h1, h2]
  rfl

/-- C2 (amended): `pre_group_books` partitions its input — every group key
is nonempty and its members are exactly the input records with that
normalized key in input order, keys are pairwise distinct, every record
with a nonempty key lands in the group of its key, and a record whose
title and author are both blank always has the empty key (and so is
dropped); titles of pure punctuation can also drop, so blankness is
sufficient but not necessary. -/
theorem pre_group_books_partition (books : List Book) :
    (∀ p ∈ pre_group_books books,
        p.1 ≠ "" ∧ p.2 = books.filter (fun b => normKeyOf b = p.1)) ∧
    ((pre_group_books books).map Prod.fst).Nodup ∧
    (∀ b ∈ books, normKeyOf b ≠ "" →
        normKeyOf b ∈ (pre_group_books books).map Prod.fst) ∧
    (∀ b ∈ books, pyStrip b.title.data = [] → pyStrip b.author.data = [] →
        normKeyOf b = "") := by
  obtain ⟨h1, h2, h3⟩ := pre_group_books_inv books
  refine ⟨h1, h2, h3, ?_⟩
  intro b _ hb1 hb2
  unfold normKeyOf normalize_book_string
  rw [normalizeCore_blank _ _ hb1 hb2]

/-- Record for the C2 counterexample: a title of parenthesized noise only. -/
def c2book : Book :=
  ⟨"(Book 1)", "", "Previously Read", "Club A", "Goodreads", "", "", 0⟩

/-- Counterexample to C2 as stated: this record is dropped (its
normalized key is empty) although its title is not blank, so "dropped
exactly when both title and author are blank" fails. -/
theorem pre_group_empty_key_not_blank :
    pre_group_books [c2book] = [] ∧
    ¬(c2book.title.data.all pySpace = true ∧
      c2book.author.data.all pySpace = true) := by
  decide

/-- Witness for C2 at a concrete record list. -/
theorem pre_group_books_partition_witness :
    (∀ p ∈ pre_group_books [c7book1, c7book2],
        p.1 ≠ "" ∧ p.2 = [c7book1, c7book2].filter (fun b => normKeyOf b = p.1)) ∧
    ((pre_group_books [c7book1, c7book2]).map Prod.fst).Nodup ∧
    (∀ b ∈ [c7book1, c7book2], normKeyOf b ≠ "" →
        normKeyOf b ∈ (pre_group_books [c7book1, c7book2]).map Prod.fst) ∧
    (∀ b ∈ [c7book1, c7book2], pyStrip b.title.data = [] →
        pyStrip b.author.data = [] → normKeyOf b = "") :=
  pre_group_books_partition [c7book1, c7book2]

/- ─── Case-equivalence machinery (claim C9) ──────────────────────────── -/

/-- Two character lists that agree up to ASCII case. -/
inductive CE : List Char → List Char → Prop
  | nil : CE [] []
  | cons {a b : Char} {l l' : List Char} :
      pyLower a = pyLower b → CE l l' → CE (a :: l) (b :: l')

/-- A Bool-valued character predicate that only depends on the
case-folded character. -/
def Caseless (p : Char → Bool) : Prop :=
  ∀ a b : Char, pyLower a = pyLower b → p a = p b

/-- Whitespace testing is caseless. -/
theorem caseless_pySpace : Caseless pySpace := by
  intro a b h
  rw [← pySpace_pyLower a, ← pySpace_pyLower b, h]

/-- The alphanumeric-or-whitespace filter of `removeNonAlnum` is
caseless. -/
theorem caseless_alnumSpace : Caseless (fun c => isAlnumAscii c || pySpace c) := by
  intro a b h
  simp only [← isAlnumAscii_pyLower a, ← isAlnumAscii_pyLower b,
    ← pySpace_pyLower a, ← pySpace_pyLower b, h]

/-- Word-character testing is caseless. -/
theorem caseless_isWordChar : Caseless isWordChar := by
  intro a b h
  rw [← isWordChar_pyLower a, ← isWordChar_pyLower b, h]

/-- Case-equivalence is reflexive. -/
theorem CE.refl : ∀ s, CE s s
  | [] => CE.nil
  | _ :: r => CE.cons rfl (CE.refl r)

/-- Case-equivalent lists have the same case folding. -/
theorem CE.lower_eq {s s' : List Char} (h : CE s s') :
    s.map pyLower = s'.map pyLower := by
  induction h with
  | nil => rfl
  | cons hc _ ih => simp [hc, ih]

/-- Case-equivalent lists have the same length. -/
theorem CE.length_eq {s s' : List Char} (h : CE s s') :
    s.length = s'.length := by
  induction h with
  | nil => rfl
  | cons _ _ ih => simp [ih]

/-- Case-equivalent lists are empty together. -/
theorem CE.isEmpty_eq {s s' : List Char} (h : CE s s') :
    s.isEmpty = s'.isEmpty := by
  cases h with
  | nil => rfl
  | cons _ _ => rfl

/-- Case-equivalence respects concatenation. -/
theorem CE.append {a a' b b' : List Char} (h1 : CE a a') (h2 : CE b b') :
    CE (a ++ b) (a' ++ b') := by
  induction h1 with
  | nil => exact h2
  | cons hc _ ih => exact CE.cons hc ih

/-- Case-equivalence respects `reverse`. -/
theorem CE.rev {s s' : List Char} (h : CE s s') :
    CE s.reverse s'.reverse := by
  induction h with
  | nil => exact CE.nil
  | cons hc _ ih =>
      simp only [List.reverse_cons]
      exact ih.append (CE.cons hc CE.nil)

/-- Case-equivalence respects `takeWhile` for caseless predicates. -/
theorem CE.take_while {p : Char → Bool} (hp : Caseless p) :
    ∀ {s s' : List Char}, CE s s' → CE (s.takeWhile p) (s'.takeWhile p) := by
  intro s s' h
  induction h with
  | nil => exact CE.nil
  | @cons a b l l' hc hr ih =>
      simp only [List.takeWhile_cons, hp a b hc]
      split
      · exact CE.cons hc ih
      · exact CE.nil

/-- Case-equivalence respects `dropWhile` for caseless predicates. -/
theorem CE.drop_while {p : Char → Bool} (hp : Caseless p) :
    ∀ {s s' : List Char}, CE s s' → CE (s.dropWhile p) (s'.dropWhile p) := by
  intro s s' h
  induction h with
  | nil => exact CE.nil
  | @cons a b l l' hc hr ih =>
      simp only [List.dropWhile_cons, hp a b hc]
      split
      · exact ih
      · exact CE.cons hc hr

/-- Case-equivalence respects `filter` for caseless predicates. -/
theorem CE.filter_ce {p : Char → Bool} (hp : Caseless p) :
    ∀ {s s' : List Char}, CE s s' → CE (s.filter p) (s'.filter p) := by
  intro s s' h
  induction h with
  | nil => exact CE.nil
  | @cons a b l l' hc hr ih =>
      simp only [List.filter_cons, hp a b hc]
      split
      · exact CE.cons hc ih
      · exact ih

/-- Case-equivalence respects `dropLast`. -/
theorem CE.drop_last {s s' : List Char} (h : CE s s') :
    CE s.dropLast s'.dropLast := by
  induction h with
  | nil => exact CE.nil
  | @cons a b l l' hc hr ih =>
      cases hr with
      | nil => exact CE.nil
      | cons hc2 hr2 =>
          simp only [List.dropLast_cons_of_ne_nil (List.cons_ne_nil _ _)]
          exact CE.cons hc ih

/-- Case-equivalence respects `dropTrailing` for caseless predicates. -/
theorem CE.drop_trailing {p : Char → Bool} (hp : Caseless p)
    {s s' : List Char} (h : CE s s') :
    CE (dropTrailing p s) (dropTrailing p s') :=
  ((h.rev.drop_while hp).rev : _)

/-- Case-equivalence respects `pyStrip`. -/
theorem CE.py_strip {s s' : List Char} (h : CE s s') :
    CE (pyStrip s) (pyStrip s') :=
  (h.drop_while caseless_pySpace).drop_trailing caseless_pySpace

/-- Case-equivalent lists agree on `any` of a caseless predicate. -/
theorem CE.any_eq {p : Char → Bool} (hp : Caseless p)
    {s s' : List Char} (h : CE s s') : s.any p = s'.any p := by
  induction h with
  | nil => rfl
  | @cons a b l l' hc _ ih =>
      simp only [List.any_cons, hp a b hc, ih]

/-- Comparisons against fixed non-letter characters transfer along case
equivalence. -/
theorem ce_char_eq (k : Char) (hk : ¬(97 ≤ k.toNat ∧ k.toNat ≤ 122))
    (hk2 : ¬(65 ≤ k.toNat ∧ k.toNat ≤ 90)) {a b : Char}
    (h : pyLower a = pyLower b) : (a = k) = (b = k) := by
  rw [← eq_char_pyLower k hk hk2 a, ← eq_char_pyLower k hk hk2 b, h]

/-- Case-equivalent lists have case-equivalent last elements. -/
theorem CE.getLast_rel {s s' : List Char} (h : CE s s') :
    (s.getLast? = none ∧ s'.getLast? = none) ∨
    (∃ x y, s.getLast? = some x ∧ s'.getLast? = some y ∧
      pyLower x = pyLower y) := by
  have hr := h.rev
  rw [← List.head?_reverse, ← List.head?_reverse]
  revert hr
  generalize s.reverse = u
  generalize s'.reverse = u'
  intro hr
  cases hr with
  | nil => exact Or.inl ⟨rfl, rfl⟩
  | @cons a b l l' hc _ => exact Or.inr ⟨a, b, rfl, rfl, hc⟩

/-- `subLeadingBracket` respects case equivalence. -/
theorem CE.sub_leading {s s' : List Char} (h : CE s s') :
    CE (subLeadingBracket s) (subLeadingBracket s') := by
  unfold subLeadingBracket
  have hd := h.drop_while caseless_pySpace
  revert hd
  generalize s.dropWhile pySpace = d
  generalize s'.dropWhile pySpace = d'
  intro hd
  cases hd with
  | nil => exact h
  | @cons a b l l' hc hr =>
      show CE (if a = '[' then l.dropWhile pySpace else s)
        (if b = '[' then l'.dropWhile pySpace else s')
      have heq : (a = '[') = (b = '[') := ce_char_eq '[' (by decide) (by decide) hc
      by_cases hbr : a = '['
      · rw [if_pos hbr, if_pos (heq ▸ hbr)]
        exact hr.drop_while caseless_pySpace
      · rw [if_neg hbr, if_neg (heq ▸ hbr)]
        exact h

/-- `subTrailingBracket` respects case equivalence. -/
theorem CE.sub_trailing {s s' : List Char} (h : CE s s') :
    CE (subTrailingBracket s) (subTrailingBracket s') := by
  show CE
    (match (dropTrailing pySpace s).getLast? with
     | some c => if c = ']' then
         dropTrailing pySpace (dropTrailing pySpace s).dropLast else s
     | none => s)
    (match (dropTrailing pySpace s').getLast? with
     | some c => if c = ']' then
         dropTrailing pySpace (dropTrailing pySpace s').dropLast else s'
     | none => s')
  have hr := h.drop_trailing caseless_pySpace
  rcases hr.getLast_rel with ⟨h1, h2⟩ | ⟨x, y, h1, h2, hxy⟩
  · rw [h1, h2]
    exact h
  · rw [h1, h2]
    show CE (if x = ']' then dropTrailing pySpace (dropTrailing pySpace s).dropLast else s)
      (if y = ']' then dropTrailing pySpace (dropTrailing pySpace s').dropLast else s')
    have heq : (x = ']') = (y = ']') := ce_char_eq ']' (by decide) (by decide) hxy
    by_cases hbr : x = ']'
    · rw [if_pos hbr, if_pos (heq ▸ hbr)]
      exact (hr.drop_last).drop_trailing caseless_pySpace
    · rw [if_neg hbr, if_neg (heq ▸ hbr)]
      exact h

/-- The bracket/parenthesis scanner respects case equivalence, for
delimiters that are not letters; the two states are both empty or hold
case-equivalent buffers. -/
theorem CE.sub_delims (op cl : Char)
    (hop1 : ¬(97 ≤ op.toNat ∧ op.toNat ≤ 122))
    (hop2 : ¬(65 ≤ op.toNat ∧ op.toNat ≤ 90))
    (hcl1 : ¬(97 ≤ cl.toNat ∧ cl.toNat ≤ 122))
    (hcl2 : ¬(65 ≤ cl.toNat ∧ cl.toNat ≤ 90)) :
    ∀ {s s'}, CE s s' →
      ∀ {st st' : Option (List Char)},
        ((st = none ∧ st' = none) ∨
          (∃ bf bf', st = some bf ∧ st' = some bf' ∧ CE bf bf')) →
        CE (subDelimsAux op cl st s) (subDelimsAux op cl st' s') := by
  intro s s' h
  induction h with
  | nil =>
      intro st st' hst
      rcases hst with ⟨h1, h2⟩ | ⟨bf, bf', h1, h2, hbf⟩ <;> subst h1 <;> subst h2
      · exact CE.nil
      · exact CE.cons rfl hbf.rev
  | @cons a b l l' hc hr ih =>
      intro st st' hst
      have heqop : (a = op) = (b = op) := ce_char_eq op hop1 hop2 hc
      have heqcl : (a = cl) = (b = cl) := ce_char_eq cl hcl1 hcl2 hc
      have heqnl : (a = '\n') = (b = '\n') := ce_char_eq '\n' (by decide) (by decide) hc
      rcases hst with ⟨h1, h2⟩ | ⟨bf, bf', h1, h2, hbf⟩ <;> subst h1 <;> subst h2
      · show CE (if a = op then subDelimsAux op cl (some []) l
              else a :: subDelimsAux op cl none l)
          (if b = op then subDelimsAux op cl (some []) l'
              else b :: subDelimsAux op cl none l')
        by_cases hao : a = op
        · rw [if_pos hao, if_pos (heqop ▸ hao)]
          exact ih (Or.inr ⟨[], [], rfl, rfl, CE.nil⟩)
        · rw [if_neg hao, if_neg (heqop ▸ hao)]
          exact CE.cons hc (ih (Or.inl ⟨rfl, rfl⟩))
      · show CE (if a = cl then subDelimsAux op cl none l
              else if a = '\n' then
                op :: bf.reverse ++ '\n' :: subDelimsAux op cl none l
              else subDelimsAux op cl (some (a :: bf)) l)
          (if b = cl then subDelimsAux op cl none l'
              else if b = '\n' then
                op :: bf'.reverse ++ '\n' :: subDelimsAux op cl none l'
              else subDelimsAux op cl (some (b :: bf')) l')
        by_cases hacl : a = cl
        · have hbcl : b = cl := heqcl ▸ hacl
          rw [if_pos hacl, if_pos hbcl]
          exact ih (Or.inl ⟨rfl, rfl⟩)
        · have hbcl : ¬b = cl := by rw [← heqcl]; exact hacl
          rw [if_neg hacl, if_neg hbcl]
          by_cases han : a = '\n'
          · have hbn : b = '\n' := heqnl ▸ han
            rw [if_pos han, if_pos hbn]
            exact CE.cons rfl (hbf.rev.append
              (CE.cons rfl (ih (Or.inl ⟨rfl, rfl⟩))))
          · have hbn : ¬b = '\n' := by rw [← heqnl]; exact han
            rw [if_neg han, if_neg hbn]
            exact ih (Or.inr ⟨a :: bf, b :: bf', rfl, rfl, CE.cons hc hbf⟩)

/-- Unfolding equation for `ciMatch`. -/
theorem ciMatch_cons (p : Char) (ps : List Char) (c : Char) (cs : List Char) :
    ciMatch (p :: ps) (c :: cs) =
      if pyLower c = p then ciMatch ps cs else none := rfl

/-- `ciMatch` respects case equivalence: both fail or both succeed with
case-equivalent remainders. -/
theorem CE.ci_match (phrase : List Char) :
    ∀ {s s' : List Char}, CE s s' →
      (ciMatch phrase s = none ∧ ciMatch phrase s' = none) ∨
      (∃ r r', ciMatch phrase s = some r ∧ ciMatch phrase s' = some r' ∧
        CE r r') := by
  induction phrase with
  | nil => intro s s' h; exact Or.inr ⟨s, s', rfl, rfl, h⟩
  | cons p ps ih =>
      intro s s' h
      cases h with
      | nil => exact Or.inl ⟨rfl, rfl⟩
      | @cons a b l l' hc hr =>
          rw [ciMatch_cons, ciMatch_cons]
          by_cases hap : pyLower a = p
          · have hbp : pyLower b = p := hc ▸ hap
            rw [if_pos hap, if_pos hbp]
            exact ih hr
          · have hbp : ¬pyLower b = p := hc ▸ hap
            rw [if_neg hap, if_neg hbp]
            exact Or.inl ⟨rfl, rfl⟩

/-- `fluffMatch` respects case equivalence. -/
theorem CE.fluff_match (phrase : List Char) {s s' : List Char} (h : CE s s') :
    (fluffMatch phrase s = none ∧ fluffMatch phrase s' = none) ∨
    (∃ r r', fluffMatch phrase s = some r ∧ fluffMatch phrase s' = some r' ∧
      CE r r') := by
  unfold fluffMatch
  rcases CE.ci_match phrase (h.drop_while caseless_pySpace) with
    ⟨h1, h2⟩ | ⟨r, r', h1, h2, hrr⟩
  · rw [h1, h2]
    exact Or.inl ⟨rfl, rfl⟩
  · rw [h1, h2]
    cases hrr with
    | nil => exact Or.inr ⟨[], [], rfl, rfl, CE.nil⟩
    | @cons a b l l' hc hr =>
        show (ite (isWordChar a = true) none (some (a :: l)) = none ∧
            ite (isWordChar b = true) none (some (b :: l')) = none) ∨
          (∃ r r', ite (isWordChar a = true) none (some (a :: l)) = some r ∧
            ite (isWordChar b = true) none (some (b :: l')) = some r' ∧ CE r r')
        rw [caseless_isWordChar a b hc]
        by_cases hw : isWordChar b = true
        · rw [if_pos hw, if_pos hw]
          exact Or.inl ⟨rfl, rfl⟩
        · rw [if_neg hw, if_neg hw]
          exact Or.inr ⟨a :: l, b :: l', rfl, rfl, CE.cons hc hr⟩

/-- The fluff scanner respects case equivalence at equal fuel. -/
theorem CE.sub_fluff_aux (phrase : List Char) :
    ∀ (fuel : Nat) {s s' : List Char}, CE s s' →
      CE (subFluffAux phrase fuel s) (subFluffAux phrase fuel s') := by
  intro fuel
  induction fuel with
  | zero =>
      intro s s' h
      cases h with
      | nil => exact CE.nil
      | cons hc hr => exact CE.cons hc hr
  | succ n ih =>
      intro s s' h
      cases h with
      | nil => exact CE.nil
      | @cons a b l l' hc hr =>
          have heqc : (a = ':') = (b = ':') := ce_char_eq ':' (by decide) (by decide) hc
          show CE
            (if a = ':' then
              match fluffMatch phrase l with
              | some rest => subFluffAux phrase n rest
              | none => ':' :: subFluffAux phrase n l
            else a :: subFluffAux phrase n l)
            (if b = ':' then
              match fluffMatch phrase l' with
              | some rest => subFluffAux phrase n rest
              | none => ':' :: subFluffAux phrase n l'
            else b :: subFluffAux phrase n l')
          by_cases hac : a = ':'
          · have hbc : b = ':' := heqc ▸ hac
            rw [if_pos hac, if_pos hbc]
            rcases CE.fluff_match phrase hr with ⟨h1, h2⟩ | ⟨r, r', h1, h2, hrr⟩
            · rw [h1, h2]
              exact CE.cons rfl (ih hr)
            · rw [h1, h2]
              exact ih hrr
          · have hbc : ¬b = ':' := by rw [← heqc]; exact hac
            rw [if_neg hac, if_neg hbc]
            exact CE.cons hc (ih hr)

/-- `subFluff` respects case equivalence. -/
theorem CE.sub_fluff (phrase : List Char) {s s' : List Char} (h : CE s s') :
    CE (subFluff phrase s) (subFluff phrase s') := by
  unfold subFluff
  rw [h.length_eq]
  exact CE.sub_fluff_aux phrase _ h

/-- The composed title scrub respects case equivalence. -/
theorem CE.title_scrub {s s' : List Char} (h : CE s s') :
    CE (titleScrub s) (titleScrub s') := by
  unfold titleScrub subInlineBrackets subParens
  exact CE.sub_fluff _ (CE.sub_fluff _ (CE.sub_fluff _
    (CE.sub_delims '(' ')' (by decide) (by decide) (by decide) (by decide)
      (CE.sub_delims '[' ']' (by decide) (by decide) (by decide) (by decide)
        h.sub_leading.sub_trailing (Or.inl ⟨rfl, rfl⟩))
      (Or.inl ⟨rfl, rfl⟩))))

/-- `splitAtLast` at a non-letter separator respects case equivalence. -/
theorem CE.split_at_last (ch : Char)
    (h1 : ¬(97 ≤ ch.toNat ∧ ch.toNat ≤ 122))
    (h2 : ¬(65 ≤ ch.toNat ∧ ch.toNat ≤ 90)) :
    ∀ {s s' : List Char}, CE s s' →
      (splitAtLast ch s = none ∧ splitAtLast ch s' = none) ∨
      (∃ p q p' q', splitAtLast ch s = some (p, q) ∧
        splitAtLast ch s' = some (p', q') ∧ CE p p' ∧ CE q q') := by
  intro s s' h
  induction h with
  | nil => exact Or.inl ⟨rfl, rfl⟩
  | @cons a b l l' hc hr ih =>
      have heq : (a = ch) = (b = ch) := ce_char_eq ch h1 h2 hc
      rcases ih with ⟨ha, hb⟩ | ⟨p, q, p', q', ha, hb, hpp, hqq⟩
      · simp only [splitAtLast, ha, hb]
        by_cases hach : a = ch
        · have hbch : b = ch := heq ▸ hach
          simp only [if_pos hach, if_pos hbch]
          exact Or.inr ⟨[], l, [], l', by trivial, by trivial, CE.nil, hr⟩
        · have hbch : ¬b = ch := by rw [← heq]; exact hach
          simp only [if_neg hach, if_neg hbch]
          exact Or.inl ⟨by trivial, by trivial⟩
      · simp only [splitAtLast, ha, hb]
        exact Or.inr ⟨a :: p, q, b :: p', q', by trivial, by trivial,
          CE.cons hc hpp, hqq⟩

/-- `commaTheStage` respects case equivalence. -/
theorem CE.comma_the {s s' : List Char} (h : CE s s') :
    CE (commaTheStage s) (commaTheStage s') := by
  unfold commaTheStage commaTheMatch
  rcases CE.split_at_last ',' (by decide) (by decide) h with
    ⟨ha, hb⟩ | ⟨p, q, p', q', ha, hb, hpp, hqq⟩
  · rw [ha, hb]
    exact h
  · rw [ha, hb]
    have hart := hqq.drop_while caseless_pySpace
    have hcond :
        ((((q.dropWhile pySpace).map pyLower = ['t', 'h', 'e'] ||
            (q.dropWhile pySpace).map pyLower = ['a'] ||
            (q.dropWhile pySpace).map pyLower = ['a', 'n']) &&
          !p.isEmpty && !p.any (· = '\n')) : Bool) =
        (((q'.dropWhile pySpace).map pyLower = ['t', 'h', 'e'] ||
            (q'.dropWhile pySpace).map pyLower = ['a'] ||
            (q'.dropWhile pySpace).map pyLower = ['a', 'n']) &&
          !p'.isEmpty && !p'.any (· = '\n')) := by
      rw [hart.lower_eq, hpp.isEmpty_eq,
        hpp.any_eq (fun x y hxy => by
          show decide (x = '\n') = decide (y = '\n')
          simp only [decide_eq_decide]
          rw [ce_char_eq '\n' (by decide) (by decide) hxy])]
    simp only []
    by_cases hcnd : (((q.dropWhile pySpace).map pyLower = ['t', 'h', 'e'] ||
        (q.dropWhile pySpace).map pyLower = ['a'] ||
        (q.dropWhile pySpace).map pyLower = ['a', 'n']) &&
      !p.isEmpty && !p.any (· = '\n')) = true
    · rw [if_pos hcnd, if_pos (hcond ▸ hcnd)]
      exact hart.append (CE.cons rfl hpp)
    · rw [if_neg hcnd, if_neg (hcond ▸ hcnd)]
      exact h

/-- `byTailLast` respects case equivalence. -/
theorem CE.by_tail_last {w2 w2' : List Char} (h : CE w2 w2') :
    (byTailLast w2 = none ∧ byTailLast w2' = none) ∨
    (∃ g g', byTailLast w2 = some g ∧ byTailLast w2' = some g' ∧ CE g g') := by
  unfold byTailLast
  rcases h.getLast_rel with ⟨hg1, hg2⟩ | ⟨u, v, hg1, hg2, huv⟩
  · rw [hg1, hg2]
    exact Or.inl ⟨rfl, rfl⟩
  · rw [hg1, hg2]
    show (ite ((decide (2 ≤ w2.length) && decide (u ≠ '\n')) = true)
          (some [u]) none = none ∧
        ite ((decide (2 ≤ w2'.length) && decide (v ≠ '\n')) = true)
          (some [v]) none = none) ∨
      (∃ g g', ite ((decide (2 ≤ w2.length) && decide (u ≠ '\n')) = true)
          (some [u]) none = some g ∧
        ite ((decide (2 ≤ w2'.length) && decide (v ≠ '\n')) = true)
          (some [v]) none = some g' ∧ CE g g')
    have hcnd : (decide (2 ≤ w2.length) && decide (u ≠ '\n')) =
        (decide (2 ≤ w2'.length) && decide (v ≠ '\n')) := by
      rw [h.length_eq]
      congr 1
      simp only [decide_eq_decide, ne_eq]
      rw [ce_char_eq '\n' (by decide) (by decide) huv]
    rw [hcnd]
    by_cases hok : (decide (2 ≤ w2'.length) && decide (v ≠ '\n')) = true
    · rw [if_pos hok, if_pos hok]
      exact Or.inr ⟨[u], [v], rfl, rfl, CE.cons huv CE.nil⟩
    · rw [if_neg hok, if_neg hok]
      exact Or.inl ⟨rfl, rfl⟩

/-- `matchByTail` respects case equivalence. -/
theorem CE.match_by_tail {s s' : List Char} (h : CE s s') :
    (matchByTail s = none ∧ matchByTail s' = none) ∨
    (∃ g g', matchByTail s = some g ∧ matchByTail s' = some g' ∧ CE g g') := by
  simp only [matchByTail]
  have hw1 := h.take_while caseless_pySpace
  have hr1 := h.drop_while caseless_pySpace
  rw [hw1.isEmpty_eq]
  by_cases he : (s'.takeWhile pySpace).isEmpty = true
  · rw [if_pos he, if_pos he]
    exact Or.inl ⟨rfl, rfl⟩
  · rw [if_neg he, if_neg he]
    revert hr1
    generalize s.dropWhile pySpace = r1
    generalize s'.dropWhile pySpace = r1'
    intro hr1
    cases hr1 with
    | nil => exact Or.inl ⟨rfl, rfl⟩
    | @cons x x' rest rest' hx hrest =>
        cases hrest with
        | nil => exact Or.inl ⟨rfl, rfl⟩
        | @cons y y' r2 r2' hy hr2 =>
            have hby : ((pyLower x = 'b' && pyLower y = 'y') : Bool) =
                ((pyLower x' = 'b' && pyLower y' = 'y') : Bool) := by
              rw [hx, hy]
            simp only []
            rw [hby]
            by_cases hb : (pyLower x' = 'b' && pyLower y' = 'y') = true
            · rw [if_pos hb, if_pos hb]
              have hw2 := hr2.take_while caseless_pySpace
              have hz := hr2.drop_while caseless_pySpace
              rw [hw2.isEmpty_eq, hz.isEmpty_eq]
              by_cases hwe : (r2'.takeWhile pySpace).isEmpty = true
              · rw [if_pos hwe, if_pos hwe]
                exact Or.inl ⟨rfl, rfl⟩
              · rw [if_neg hwe, if_neg hwe]
                by_cases hze : (r2'.dropWhile pySpace).isEmpty = true
                · simp only [hze, Bool.not_true, Bool.false_eq_true, if_false]
                  exact CE.by_tail_last hw2
                · have hzf : (r2'.dropWhile pySpace).isEmpty = false :=
                    Bool.eq_false_iff.mpr hze
                  rw [hzf]
                  have hcl : Caseless (fun x => decide (x = '\n')) := by
                    intro a b hab
                    show decide (a = '\n') = decide (b = '\n')
                    simp only [decide_eq_decide]
                    rw [ce_char_eq '\n' (by decide) (by decide) hab]
                  have hnl := hz.any_eq hcl
                  rw [hnl]
                  by_cases hzn : (r2'.dropWhile pySpace).any (· = '\n') = true
                  · rw [if_pos hzn, if_pos hzn]
                    exact Or.inl ⟨rfl, rfl⟩
                  · rw [if_neg hzn, if_neg hzn]
                    exact Or.inr ⟨_, _, rfl, rfl, hz⟩
            · rw [if_neg hb, if_neg hb]
              exact Or.inl ⟨rfl, rfl⟩

/-- Unfolding equation for `byMatchAux`. -/
theorem byMatchAux_cons (acc : List Char) (a : Char) (l : List Char) :
    byMatchAux acc (a :: l) =
      if a = '\n' then none
      else
        match matchByTail l with
        | some g2 => some ((a :: acc).reverse, g2)
        | none => byMatchAux (a :: acc) l := rfl

/-- The non-greedy group-1 scanner respects case equivalence. -/
theorem CE.by_match_aux :
    ∀ {s s' : List Char}, CE s s' → ∀ {acc acc' : List Char}, CE acc acc' →
      (byMatchAux acc s = none ∧ byMatchAux acc' s' = none) ∨
      (∃ g1 g2 g1' g2', byMatchAux acc s = some (g1, g2) ∧
        byMatchAux acc' s' = some (g1', g2') ∧ CE g1 g1' ∧ CE g2 g2') := by
  intro s s' h
  induction h with
  | nil => intro acc acc' _; exact Or.inl ⟨rfl, rfl⟩
  | @cons a b l l' hc hr ih =>
      intro acc acc' hacc
      have heqn : (a = '\n') = (b = '\n') := ce_char_eq '\n' (by decide) (by decide) hc
      rw [byMatchAux_cons, byMatchAux_cons]
      by_cases han : a = '\n'
      · have hbn : b = '\n' := heqn ▸ han
        rw [if_pos han, if_pos hbn]
        exact Or.inl ⟨rfl, rfl⟩
      · have hbn : ¬b = '\n' := by rw [← heqn]; exact han
        rw [if_neg han, if_neg hbn]
        rcases CE.match_by_tail hr with ⟨h1, h2⟩ | ⟨g, g', h1, h2, hgg⟩
        · rw [h1, h2]
          exact ih (CE.cons hc hacc)
        · rw [h1, h2]
          exact Or.inr ⟨(a :: acc).reverse, g, (b :: acc').reverse, g', rfl, rfl,
            (CE.cons hc hacc).rev, hgg⟩

/-- The `by`-splitting stage respects case equivalence componentwise. -/
theorem CE.by_stage {t t' a a' : List Char} (ht : CE t t') (ha : CE a a') :
    CE (byStage t a).1 (byStage t' a').1 ∧ CE (byStage t a).2 (byStage t' a').2 := by
  unfold byStage
  rw [ha.isEmpty_eq]
  by_cases hae : a'.isEmpty = true
  · rw [if_pos hae, if_pos hae]
    rcases CE.by_match_aux ht CE.nil with ⟨h1, h2⟩ | ⟨g1, g2, g1', g2', h1, h2, hg1, hg2⟩
    · show CE (match byMatch t with
          | some (g1, g2) => (g1, g2)
          | none => (t, a)).1 _ ∧ _
      unfold byMatch
      rw [h1, h2]
      exact ⟨ht, ha⟩
    · unfold byMatch
      rw [h1, h2]
      exact ⟨hg1, hg2⟩
  · rw [if_neg hae, if_neg hae]
    exact ⟨ht, ha⟩

/-- `removeNonAlnum` respects case equivalence. -/
theorem CE.remove_non_alnum {s s' : List Char} (h : CE s s') :
    CE (removeNonAlnum s) (removeNonAlnum s') := by
  unfold removeNonAlnum
  exact h.filter_ce caseless_alnumSpace

/-- `collapseWs` respects case equivalence. -/
theorem CE.collapse_ws : ∀ {s s' : List Char}, CE s s' →
    CE (collapseWs s) (collapseWs s') := by
  intro s s' h
  induction h with
  | nil => exact CE.nil
  | @cons a b l l' hc hr ih =>
      have hsp : pySpace a = pySpace b := caseless_pySpace a b hc
      cases hr with
      | nil =>
          show CE [if pySpace a then ' ' else a] [if pySpace b then ' ' else b]
          by_cases hs : pySpace a = true
          · rw [if_pos hs, if_pos (hsp ▸ hs)]
            exact CE.refl _
          · rw [if_neg hs, if_neg (hsp ▸ hs)]
            exact CE.cons hc CE.nil
      | @cons c d m m' hcd hm =>
          have hsp2 : pySpace c = pySpace d := caseless_pySpace c d hcd
          show CE
            (if pySpace a && pySpace c then collapseWs (c :: m)
             else (if pySpace a then ' ' else a) :: collapseWs (c :: m))
            (if pySpace b && pySpace d then collapseWs (d :: m')
             else (if pySpace b then ' ' else b) :: collapseWs (d :: m'))
          rw [hsp, hsp2]
          by_cases hbd : (pySpace b && pySpace d) = true
          · rw [if_pos hbd, if_pos hbd]
            exact ih
          · rw [if_neg hbd, if_neg hbd]
            refine CE.cons ?_ ih
            by_cases hs : pySpace b = true
            · rw [if_pos hs, if_pos hs]
            · rw [if_neg hs, if_neg hs]
              exact hc

/-- `finalClean` maps case-equivalent lists to equal lists. -/
theorem CE.final_clean {s s' : List Char} (h : CE s s') :
    finalClean s = finalClean s' := by
  unfold finalClean
  exact (h.collapse_ws.py_strip).lower_eq

/-- `normalizeCore` is invariant under case equivalence of both inputs. -/
theorem normalizeCore_ce {t t' a a' : List Char} (ht : CE t t') (ha : CE a a') :
    normalizeCore t a = normalizeCore t' a' := by
  simp only [normalizeCore]
  have hstage := CE.by_stage (ht.py_strip.title_scrub.comma_the) (ha.py_strip)
  have h1 := (hstage.1.remove_non_alnum).final_clean
  have h2 := (hstage.2.remove_non_alnum).final_clean
  rw [h1, h2]

/-- Upper-casing a list yields a case-equivalent list. -/
theorem ce_upper : ∀ l : List Char, CE (l.map pyUpper) l
  | [] => CE.nil
  | c :: r => CE.cons (pyLower_pyUpper c) (ce_upper r)

/-- Lower-casing a list yields a case-equivalent list. -/
theorem ce_lower : ∀ l : List Char, CE (l.map pyLower) l
  | [] => CE.nil
  | c :: r => CE.cons (pyLower_pyLower c) (ce_lower r)

/-- `dropWhile` skips over a prefix made of satisfying characters. -/
theorem dropWhile_all (p : Char → Bool) :
    ∀ (w x : List Char), (∀ c ∈ w, p c) → (w ++ x).dropWhile p = x.dropWhile p := by
  intro w
  induction w with
  | nil => intro x _; rfl
  | cons c r ih =>
      intro x hw
      have hc : p c = true := hw c (List.mem_cons_self c r)
      simp only [List.cons_append, List.dropWhile_cons, hc, if_true]
      exact ih x fun d hd => hw d (List.mem_cons_of_mem c hd)

/-- `dropWhile` erases a list made of satisfying characters. -/
theorem dropWhile_all_nil (p : Char → Bool) (w : List Char)
    (hw : ∀ c ∈ w, p c) : w.dropWhile p = [] := by
  have := dropWhile_all p w [] hw
  simpa using this

/-- `dropTrailing` ignores an all-satisfying suffix. -/
theorem dropTrailing_append_all (p : Char → Bool) (y w : List Char)
    (hw : ∀ c ∈ w, p c) : dropTrailing p (y ++ w) = dropTrailing p y := by
  unfold dropTrailing
  rw [List.reverse_append]
  rw [dropWhile_all p w.reverse y.reverse fun c hc =>
    hw c (List.mem_reverse.mp hc)]

/-- Stripping removes any whitespace padding. -/
theorem pyStrip_pad (w1 w2 x : List Char) (hw1 : ∀ c ∈ w1, pySpace c)
    (hw2 : ∀ c ∈ w2, pySpace c) : pyStrip (w1 ++ x ++ w2) = pyStrip x := by
  unfold pyStrip
  rw [List.append_assoc, dropWhile_all pySpace w1 (x ++ w2) hw1,
    List.dropWhile_append]
  by_cases he : (x.dropWhile pySpace).isEmpty = true
  · rw [if_pos he]
    rw [dropWhile_all_nil pySpace w2 hw2]
    rw [List.isEmpty_iff] at he
    rw [he]
  · rw [if_neg he]
    exact dropTrailing_append_all pySpace _ w2 hw2

/-- `normalizeCore` only sees its inputs through `pyStrip`. -/
theorem normalizeCore_strip_congr {t t' a a' : List Char}
    (h1 : pyStrip t = pyStrip t') (h2 : pyStrip a = pyStrip a') :
    normalizeCore t a = normalizeCore t' a' := by
  simp only [normalizeCore]
  rw [h1, h2]

/-- C9: `normalize_book_string` is case-insensitive and insensitive to
surrounding whitespace: upper-casing, lower-casing, or padding either
argument with whitespace leaves the result unchanged; in particular
normalizing "DUNE" / "FRANK HERBERT" agrees with " dune " /
" frank herbert ". -/
theorem normalize_case_ws_insensitive (t a : String) :
    normalize_book_string (String.mk (t.data.map pyUpper)) a =
        normalize_book_string t a ∧
    normalize_book_string (String.mk (t.data.map pyLower)) a =
        normalize_book_string t a ∧
    normalize_book_string t (String.mk (a.data.map pyUpper)) =
        normalize_book_string t a ∧
    normalize_book_string t (String.mk (a.data.map pyLower)) =
        normalize_book_string t a ∧
    (∀ w1 w2 : List Char, (∀ c ∈ w1, pySpace c) → (∀ c ∈ w2, pySpace c) →
      normalize_book_string (String.mk (w1 ++ t.data ++ w2)) a =
          normalize_book_string t a ∧
      normalize_book_string t (String.mk (w1 ++ a.data ++ w2)) =
          normalize_book_string t a) ∧
    normalize_book_string "DUNE" "FRANK HERBERT" =
      normalize_book_string " dune " " frank herbert " := by
  refine ⟨?_, ?_, ?_, ?_, ?_, by decide⟩
  · exact congrArg String.mk (normalizeCore_ce (ce_upper t.data) (CE.refl a.data))
  · exact congrArg String.mk (normalizeCore_ce (ce_lower t.data) (CE.refl a.data))
  · exact congrArg String.mk (normalizeCore_ce (CE.refl t.data) (ce_upper a.data))
  · exact congrArg String.mk (normalizeCore_ce (CE.refl t.data) (ce_lower a.data))
  · intro w1 w2 hw1 hw2
    constructor
    · exact congrArg String.mk
        (normalizeCore_strip_congr (pyStrip_pad w1 w2 t.data hw1 hw2) rfl)
    · exact congrArg String.mk
        (normalizeCore_strip_congr rfl (pyStrip_pad w1 w2 a.data hw1 hw2))

/-- Witness for C9 at concrete strings and padding. -/
theorem normalize_case_ws_insensitive_witness :
    (∀ c ∈ [' '], pySpace c) ∧
    normalize_book_string (String.mk ([' '] ++ "DUNE".data ++ [' '])) "FRANK HERBERT" =
      normalize_book_string "DUNE" "FRANK HERBERT" :=
  ⟨by decide,
    ((normalize_case_ws_insensitive "DUNE" "FRANK HERBERT").2.2.2.2.1
      [' '] [' '] (by decide) (by decide)).1⟩

/- ─── Idempotence analysis (claim C6) ────────────────────────────────── -/

/-- Characters that can occur in a normalized string: lower-case ASCII
alphanumerics and the space. -/
def lowAlSpace (c : Char) : Bool := isLowerAlnum c || decide (c = ' ')

/-- No two adjacent spaces. -/
def noTwoSpaces : List Char → Bool
  | c1 :: c2 :: r => !(decide (c1 = ' ') && decide (c2 = ' ')) && noTwoSpaces (c2 :: r)
  | _ => true

/-- Does the list begin with the four characters " by "? -/
def startsByWord : List Char → Bool
  | c1 :: c2 :: c3 :: c4 :: _ =>
      decide (c1 = ' ') && decide (c2 = 'b') && decide (c3 = 'y') && decide (c4 = ' ')
  | _ => false

/-- Does " by " occur anywhere in the list? -/
def hasByWord : List Char → Bool
  | [] => false
  | c :: r => startsByWord (c :: r) || hasByWord r

/-- A normalized string: only lower-case alphanumerics and single interior
spaces, no leading or trailing space. -/
def NormalizedStr (s : List Char) : Prop :=
  (∀ c ∈ s, lowAlSpace c = true) ∧ noTwoSpaces s = true ∧
    s.head? ≠ some ' ' ∧ s.getLast? ≠ some ' '

/-- In the normalized character class, whitespace is exactly the space. -/
theorem lowAlSpace_space {c : Char} (h : lowAlSpace c = true)
    (hs : pySpace c = true) : c = ' ' := by
  apply charEq_of_toNat
  simp only [lowAlSpace, isLowerAlnum, pySpace, Bool.or_eq_true,
    decide_eq_true_eq] at h hs
  rcases h with h | h
  · omega
  · rw [h]

/-- Normalized characters are fixed by lower-casing. -/
theorem pyLower_lowAlSpace {c : Char} (h : lowAlSpace c = true) :
    pyLower c = c := by
  apply charEq_of_toNat
  rw [toNat_pyLower]
  simp only [lowAlSpace, isLowerAlnum, Bool.or_eq_true, decide_eq_true_eq] at h
  have hsp : (' ' : Char).toNat = 32 := rfl
  rcases h with h | h
  · split <;> omega
  · rw [h, hsp]
    rfl

/-- Normalized characters pass the alphanumeric-or-whitespace filter. -/
theorem lowAlSpace_filter {c : Char} (h : lowAlSpace c = true) :
    (isAlnumAscii c || pySpace c) = true := by
  simp only [lowAlSpace, isLowerAlnum, Bool.or_eq_true, decide_eq_true_eq] at h
  simp only [isAlnumAscii, pySpace, Bool.or_eq_true, decide_eq_true_eq]
  rcases h with h | h
  · left
    omega
  · right
    rw [h]
    left
    rfl

/-- A normalized character is not a fixed character outside the class. -/
theorem lowAlSpace_ne {c : Char} (h : lowAlSpace c = true) (k : Char)
    (hk : lowAlSpace k = false) : c ≠ k := by
  intro he
  subst he
  rw [h] at hk
  cases hk

/-- Tail of the no-two-spaces invariant. -/
theorem noTwoSpaces_tail {c : Char} {r : List Char}
    (h : noTwoSpaces (c :: r) = true) : noTwoSpaces r = true := by
  cases r with
  | nil => rfl
  | cons c2 r2 =>
      simp only [noTwoSpaces, Bool.and_eq_true] at h
      exact h.2

/-- The no-two-spaces invariant restricts to initial segments. -/
theorem noTwoSpaces_append_left : ∀ (u v : List Char),
    noTwoSpaces (u ++ v) = true → noTwoSpaces u = true
  | [], _, _ => rfl
  | [_], _, _ => rfl
  | c1 :: c2 :: r, v, h => by
      simp only [List.cons_append, noTwoSpaces, Bool.and_eq_true] at h ⊢
      exact ⟨h.1, noTwoSpaces_append_left (c2 :: r) v h.2⟩

/-- The no-two-spaces invariant restricts to final segments. -/
theorem noTwoSpaces_append_right : ∀ (u v : List Char),
    noTwoSpaces (u ++ v) = true → noTwoSpaces v = true
  | [], _, h => h
  | c :: u, v, h => by
      refine noTwoSpaces_append_right u v ?_
      exact noTwoSpaces_tail (r := u ++ v) h

/-- The no-two-spaces invariant survives `dropWhile`. -/
theorem noTwoSpaces_dropWhile (p : Char → Bool) : ∀ (s : List Char),
    noTwoSpaces s = true → noTwoSpaces (s.dropWhile p) = true := by
  intro s h
  have := List.takeWhile_append_dropWhile (p := p) (l := s)
  exact noTwoSpaces_append_right (s.takeWhile p) (s.dropWhile p) (by rw [this]; exact h)

/-- Head of a collapsed nonempty list: a space when the source head is
whitespace, the source head otherwise. -/
theorem collapseWs_head : ∀ (r : List Char) (c : Char),
    (collapseWs (c :: r)).head? = some (if pySpace c then ' ' else c)
  | [], c => rfl
  | c2 :: r2, c => by
      show (if pySpace c && pySpace c2 then collapseWs (c2 :: r2)
          else (if pySpace c then ' ' else c) :: collapseWs (c2 :: r2)).head? = _
      by_cases hb : (pySpace c && pySpace c2) = true
      · rw [if_pos hb]
        rw [collapseWs_head r2 c2]
        simp only [Bool.and_eq_true] at hb
        rw [if_pos hb.1, if_pos hb.2]
      · rw [if_neg hb]
        rfl

/-- Collapsing produces no two adjacent spaces. -/
theorem collapseWs_noTwo : ∀ (s : List Char), noTwoSpaces (collapseWs s) = true
  | [] => rfl
  | [c] => rfl
  | c1 :: c2 :: r => by
      show noTwoSpaces (if pySpace c1 && pySpace c2 then collapseWs (c2 :: r)
          else (if pySpace c1 then ' ' else c1) :: collapseWs (c2 :: r)) = true
      by_cases hb : (pySpace c1 && pySpace c2) = true
      · rw [if_pos hb]
        exact collapseWs_noTwo (c2 :: r)
      · rw [if_neg hb]
        have htail := collapseWs_noTwo (c2 :: r)
        have hhead := collapseWs_head r c2
        rcases hcw : collapseWs (c2 :: r) with _ | ⟨d, rest⟩
        · rfl
        · rw [hcw] at hhead htail
          simp only [List.head?_cons, Option.some.injEq] at hhead
          show (!(decide ((if pySpace c1 then ' ' else c1) = ' ') &&
              decide (d = ' ')) && noTwoSpaces (d :: rest)) = true
          rw [htail]
          simp only [Bool.and_true, Bool.not_eq_true', Bool.and_eq_false_iff]
          by_cases h1 : pySpace c1 = true
          · have h2 : pySpace c2 = false := by
              rcases Bool.and_eq_false_iff.mp (Bool.eq_false_iff.mpr hb) with h | h
              · rw [h1] at h
                cases h
              · exact h
            right
            rw [h2] at hhead
            simp only [Bool.false_eq_true, if_false] at hhead
            subst hhead
            simp only [decide_eq_false_iff_not]
            intro hc2
            rw [hc2] at h2
            exact absurd h2 (by decide)
          · left
            have h1f : pySpace c1 = false := Bool.eq_false_iff.mpr h1
            rw [h1f]
            simp only [Bool.false_eq_true, if_false, decide_eq_false_iff_not]
            intro hc1
            rw [hc1] at h1f
            exact absurd h1f (by decide)

/-- Characters produced by collapsing: a space, or a non-whitespace
character of the source. -/
theorem collapseWs_chars : ∀ (s : List Char) (c : Char), c ∈ collapseWs s →
    c = ' ' ∨ (c ∈ s ∧ pySpace c = false)
  | [], c, h => by cases h
  | [d], c, h => by
      replace h : c ∈ [if pySpace d then ' ' else d] := h
      simp only [List.mem_singleton] at h
      by_cases hd : pySpace d = true
      · rw [if_pos hd] at h
        exact Or.inl h
      · rw [if_neg hd] at h
        subst h
        exact Or.inr ⟨List.mem_singleton.mpr rfl, Bool.eq_false_iff.mpr hd⟩
  | c1 :: c2 :: r, c, h => by
      replace h : c ∈ (if pySpace c1 && pySpace c2 then collapseWs (c2 :: r)
          else (if pySpace c1 then ' ' else c1) :: collapseWs (c2 :: r)) := h
      by_cases hb : (pySpace c1 && pySpace c2) = true
      · rw [if_pos hb] at h
        rcases collapseWs_chars (c2 :: r) c h with h | ⟨hm, hs⟩
        · exact Or.inl h
        · exact Or.inr ⟨List.mem_cons_of_mem c1 hm, hs⟩
      · rw [if_neg hb] at h
        rcases List.mem_cons.mp h with h | h
        · by_cases h1 : pySpace c1 = true
          · rw [if_pos h1] at h
            exact Or.inl h
          · rw [if_neg h1] at h
            subst h
            exact Or.inr ⟨List.mem_cons_self _ _, Bool.eq_false_iff.mpr h1⟩
        · rcases collapseWs_chars (c2 :: r) c h with h | ⟨hm, hs⟩
          · exact Or.inl h
          · exact Or.inr ⟨List.mem_cons_of_mem c1 hm, hs⟩

/-- Membership in `dropTrailing` implies membership in the source. -/
theorem mem_dropTrailing {p : Char → Bool} {s : List Char} {c : Char}
    (h : c ∈ dropTrailing p s) : c ∈ s := by
  unfold dropTrailing at h
  rw [List.mem_reverse] at h
  exact List.mem_reverse.mp ((List.dropWhile_sublist _).mem h)

/-- The head surviving `dropWhile` fails the predicate. -/
theorem head_dropWhile_not (p : Char → Bool) : ∀ (s : List Char) (c : Char),
    (s.dropWhile p).head? = some c → p c = false
  | [], c, h => by cases h
  | d :: r, c, h => by
      rw [List.dropWhile_cons] at h
      by_cases hd : p d = true
      · rw [if_pos hd] at h
        exact head_dropWhile_not p r c h
      · rw [if_neg hd] at h
        simp only [List.head?_cons, Option.some.injEq] at h
        subst h
        exact Bool.eq_false_iff.mpr hd

/-- The last character surviving `dropTrailing` fails the predicate. -/
theorem getLast_dropTrailing_not (p : Char → Bool) (s : List Char) (c : Char)
    (h : (dropTrailing p s).getLast? = some c) : p c = false := by
  unfold dropTrailing at h
  rw [← List.head?_reverse, List.reverse_reverse] at h
  exact head_dropWhile_not p s.reverse c h

/-- `dropTrailing` yields an initial segment of its input. -/
theorem dropTrailing_split (p : Char → Bool) (s : List Char) :
    ∃ w, s = dropTrailing p s ++ w := by
  refine ⟨(s.reverse.takeWhile p).reverse, ?_⟩
  unfold dropTrailing
  rw [← List.reverse_append, List.takeWhile_append_dropWhile, List.reverse_reverse]

/-- `pyLower` maps a character to a space only if it was the space. -/
theorem pyLower_eq_space {c : Char} (h : pyLower c = ' ') : c = ' ' := by
  have := (eq_char_pyLower ' ' (by decide) (by decide) c)
  rw [← this]
  exact h

/-- Lower-casing keeps the no-two-spaces invariant. -/
theorem noTwoSpaces_map_pyLower : ∀ (s : List Char),
    noTwoSpaces s = true → noTwoSpaces (s.map pyLower) = true
  | [] , _ => rfl
  | [_], _ => rfl
  | c1 :: c2 :: r, h => by
      simp only [noTwoSpaces, Bool.and_eq_true, Bool.not_eq_true',
        Bool.and_eq_false_iff] at h
      obtain ⟨h1, h2⟩ := h
      simp only [List.map_cons, noTwoSpaces, Bool.and_eq_true,
        Bool.not_eq_true', Bool.and_eq_false_iff]
      refine ⟨?_, ?_⟩
      · rcases h1 with h1 | h1
        · left
          simp only [decide_eq_false_iff_not] at h1 ⊢
          intro hc
          exact h1 (pyLower_eq_space hc)
        · right
          simp only [decide_eq_false_iff_not] at h1 ⊢
          intro hc
          exact h1 (pyLower_eq_space hc)
      · have := noTwoSpaces_map_pyLower (c2 :: r) h2
        simpa using this

/-- Lower-casing an ASCII alphanumeric gives a lower-case alphanumeric. -/
theorem pyLower_alnum {c : Char} (h : isAlnumAscii c = true) :
    isLowerAlnum (pyLower c) = true := by
  simp only [isAlnumAscii, decide_eq_true_eq] at h
  simp only [isLowerAlnum, decide_eq_true_eq, toNat_pyLower]
  split <;> omega

/-- The cleaned parts of `normalize_book_string` are normalized strings. -/
theorem normalized_finalClean (u : List Char) :
    NormalizedStr (finalClean (removeNonAlnum u)) := by
  set x := removeNonAlnum u with hx
  set y := pyStrip (collapseWs x) with hy
  have hchars_y : ∀ c ∈ y, (isAlnumAscii c || decide (c = ' ')) = true := by
    intro c hc
    rw [hy] at hc
    unfold pyStrip at hc
    have hc2 : c ∈ collapseWs x :=
      (List.dropWhile_sublist _).mem (mem_dropTrailing hc)
    rcases collapseWs_chars x c hc2 with h | ⟨hm, hns⟩
    · rw [h]
      simp
    · rw [hx] at hm
      unfold removeNonAlnum at hm
      have := List.of_mem_filter hm
      simp only [Bool.or_eq_true] at this
      rcases this with h | h
      · rw [h]
        simp
      · rw [h] at hns
        cases hns
  have hnt_y : noTwoSpaces y = true := by
    rw [hy]
    unfold pyStrip
    rcases dropTrailing_split pySpace ((collapseWs x).dropWhile pySpace) with ⟨w, hw⟩
    refine noTwoSpaces_append_left _ w ?_
    rw [← hw]
    exact noTwoSpaces_dropWhile pySpace _ (collapseWs_noTwo x)
  have hhead_y : ∀ c, y.head? = some c → pySpace c = false := by
    intro c hc
    rw [hy] at hc
    unfold pyStrip at hc
    rcases dropTrailing_split pySpace ((collapseWs x).dropWhile pySpace) with ⟨w, hw⟩
    have hne : dropTrailing pySpace ((collapseWs x).dropWhile pySpace) ≠ [] := by
      intro hnil
      rw [hnil] at hc
      cases hc
    have h3 : ((collapseWs x).dropWhile pySpace).head? =
        (dropTrailing pySpace ((collapseWs x).dropWhile pySpace)).head? := by
      conv_lhs => rw [hw]
      exact List.head?_append_of_ne_nil _ hne
    rw [hc] at h3
    exact head_dropWhile_not pySpace _ c h3
  have hlast_y : ∀ c, y.getLast? = some c → pySpace c = false := by
    intro c hc
    rw [hy] at hc
    exact getLast_dropTrailing_not pySpace _ c hc
  refine ⟨?_, ?_, ?_, ?_⟩
  · intro c hc
    unfold finalClean at hc
    rw [← hy] at hc
    rw [List.mem_map] at hc
    obtain ⟨d, hd, hdc⟩ := hc
    subst hdc
    have := hchars_y d hd
    simp only [Bool.or_eq_true, decide_eq_true_eq] at this
    rcases this with h | h
    · unfold lowAlSpace
      rw [pyLower_alnum h]
      rfl
    · subst h
      decide
  · unfold finalClean
    rw [← hy]
    exact noTwoSpaces_map_pyLower y hnt_y
  · unfold finalClean
    rw [← hy]
    intro hc
    rw [List.head?_map] at hc
    rcases hhy : y.head? with _ | c
    · rw [hhy] at hc
      cases hc
    · rw [hhy] at hc
      simp only [Option.map_some', Option.some.injEq] at hc
      have := hhead_y c hhy
      rw [pyLower_eq_space hc] at this
      exact absurd this (by decide)
  · unfold finalClean
    rw [← hy]
    intro hc
    rw [List.getLast?_map] at hc
    rcases hhy : y.getLast? with _ | c
    · rw [hhy] at hc
      cases hc
    · rw [hhy] at hc
      simp only [Option.map_some', Option.some.injEq] at hc
      have := hlast_y c hhy
      rw [pyLower_eq_space hc] at this
      exact absurd this (by decide)

/-- Characters of the normalized class other than the space are not
whitespace. -/
theorem lowAlSpace_not_space {c : Char} (h : lowAlSpace c = true)
    (hne : c ≠ ' ') : pySpace c = false := by
  simp only [lowAlSpace, isLowerAlnum, Bool.or_eq_true, decide_eq_true_eq] at h
  rcases h with h | h
  · simp only [pySpace, decide_eq_false_iff_not]
    omega
  · exact absurd h hne

/-- Joining two no-two-spaces lists whose facing ends are not spaces with a
single space keeps the invariant. -/
theorem noTwo_append_mid : ∀ (u v : List Char), noTwoSpaces u = true →
    noTwoSpaces v = true → u.getLast? ≠ some ' ' → v.head? ≠ some ' ' →
    noTwoSpaces (u ++ ' ' :: v) = true
  | [], v, _, hv, _, hvh => by
      cases v with
      | nil => rfl
      | cons c r =>
          have hc : c ≠ ' ' := by
            intro he
            exact hvh (by rw [he]; rfl)
          show (!(decide (' ' = ' ') && decide (c = ' ')) &&
            noTwoSpaces (c :: r)) = true
          simp [hc, hv]
  | [c], v, _, hv, hul, hvh => by
      have hc : c ≠ ' ' := by
        intro he
        exact hul (by rw [he]; rfl)
      have htail := noTwo_append_mid [] v rfl hv (by simp) hvh
      show (!(decide (c = ' ') && decide (' ' = ' ')) &&
        noTwoSpaces (' ' :: v)) = true
      simp only [List.nil_append] at htail
      simp [hc, htail]
  | c1 :: c2 :: r, v, hu, hv, hul, hvh => by
      simp only [noTwoSpaces, Bool.and_eq_true] at hu
      have hul2 : (c2 :: r).getLast? ≠ some ' ' := by
        rw [← List.getLast?_cons_cons]
        exact hul
      have ih := noTwo_append_mid (c2 :: r) v hu.2 hv hul2 hvh
      show (!(decide (c1 = ' ') && decide (c2 = ' ')) &&
        noTwoSpaces (c2 :: (r ++ ' ' :: v))) = true
      rw [Bool.and_eq_true]
      exact ⟨hu.1, ih⟩

/-- The combination step of `normalize_book_string` preserves
normalization. -/
theorem normalized_combineStage {tc ac : List Char} (ht : NormalizedStr tc)
    (ha : NormalizedStr ac) : NormalizedStr (combineStage tc ac) := by
  obtain ⟨htc, htn, hth, htl⟩ := ht
  obtain ⟨hac, han, hah, hal⟩ := ha
  unfold combineStage
  by_cases hb : (!tc.isEmpty && !ac.isEmpty) = true
  · rw [if_pos hb]
    have htne : tc ≠ [] := by
      intro he
      subst he
      simp at hb
    have hane : ac ≠ [] := by
      intro he
      subst he
      simp at hb
    refine ⟨?_, ?_, ?_, ?_⟩
    · intro c hc
      rcases List.mem_append.mp hc with h | h
      · exact htc c h
      · rcases List.mem_cons.mp h with h | h
        · subst h
          decide
        · exact hac c h
    · exact noTwo_append_mid tc ac htn han htl hah
    · rw [List.head?_append_of_ne_nil _ htne]
      exact hth
    · rw [List.getLast?_append_of_ne_nil _ (by simp : ' ' :: ac ≠ [])]
      cases ac with
      | nil => exact absurd rfl hane
      | cons a as =>
          rw [List.getLast?_cons_cons]
          exact hal
  · rw [if_neg hb]
    by_cases he : tc.isEmpty = true
    · rw [if_pos he]
      exact ⟨hac, han, hah, hal⟩
    · rw [if_neg he]
      exact ⟨htc, htn, hth, htl⟩

/-- The output of `normalizeCore` is always a normalized string. -/
theorem normalized_normalizeCore (t a : List Char) :
    NormalizedStr (normalizeCore t a) := by
  simp only [normalizeCore]
  exact normalized_combineStage (normalized_finalClean _) (normalized_finalClean _)

/-- `dropWhile` is the identity when the head fails the predicate. -/
theorem dropWhile_eq_self_of_head (p : Char → Bool) : ∀ (s : List Char),
    (∀ c, s.head? = some c → p c = false) → s.dropWhile p = s
  | [], _ => rfl
  | c :: r, h => by
      have hc := h c rfl
      rw [List.dropWhile_cons, hc]
      simp

/-- `dropTrailing` is the identity when the last element fails the
predicate. -/
theorem dropTrailing_eq_self (p : Char → Bool) (s : List Char)
    (h : ∀ c, s.getLast? = some c → p c = false) : dropTrailing p s = s := by
  have h2 : ∀ c, s.reverse.head? = some c → p c = false := by
    intro c hc
    rw [List.head?_reverse] at hc
    exact h c hc
  unfold dropTrailing
  rw [dropWhile_eq_self_of_head p s.reverse h2, List.reverse_reverse]

/-- A head is a member. -/
theorem mem_head? : ∀ {s : List Char} {c : Char}, s.head? = some c → c ∈ s
  | [], _, h => by cases h
  | d :: r, c, h => by
      simp only [List.head?_cons, Option.some.injEq] at h
      subst h
      exact List.mem_cons_self _ _

/-- A last element is a member. -/
theorem mem_getLast? {s : List Char} {c : Char} (h : s.getLast? = some c) :
    c ∈ s := by
  rw [← List.head?_reverse] at h
  rw [← List.mem_reverse]
  exact mem_head? h

/-- On a normalized string `str.strip()` is the identity. -/
theorem pyStrip_eq_self {s : List Char} (h : NormalizedStr s) :
    pyStrip s = s := by
  obtain ⟨hch, _, hh, hl⟩ := h
  have hh2 : ∀ c, s.head? = some c → pySpace c = false := by
    intro c hc
    refine lowAlSpace_not_space (hch c (mem_head? hc)) ?_
    intro he
    subst he
    exact hh hc
  have hl2 : ∀ c, s.getLast? = some c → pySpace c = false := by
    intro c hc
    refine lowAlSpace_not_space (hch c (mem_getLast? hc)) ?_
    intro he
    subst he
    exact hl hc
  unfold pyStrip
  rw [dropWhile_eq_self_of_head pySpace s hh2]
  exact dropTrailing_eq_self pySpace s hl2

/-- On a normalized string the leading-bracket substitution is the
identity. -/
theorem subLeadingBracket_eq_self {s : List Char} (h : NormalizedStr s) :
    subLeadingBracket s = s := by
  obtain ⟨hch, hnt, hh, hl⟩ := h
  have hdw : s.dropWhile pySpace = s := by
    apply dropWhile_eq_self_of_head
    intro c hc
    refine lowAlSpace_not_space (hch c (mem_head? hc)) ?_
    intro he
    subst he
    exact hh hc
  unfold subLeadingBracket
  rw [hdw]
  cases s with
  | nil => rfl
  | cons c r =>
      have hne : c ≠ '[' :=
        lowAlSpace_ne (hch c (List.mem_cons_self c r)) '[' (by decide)
      exact if_neg hne

/-- On a normalized string the trailing-bracket substitution is the
identity. -/
theorem subTrailingBracket_eq_self {s : List Char} (h : NormalizedStr s) :
    subTrailingBracket s = s := by
  obtain ⟨hch, hnt, hh, hl⟩ := h
  have hdt : dropTrailing pySpace s = s := by
    apply dropTrailing_eq_self
    intro c hc
    refine lowAlSpace_not_space (hch c (mem_getLast? hc)) ?_
    intro he
    subst he
    exact hl hc
  simp only [subTrailingBracket]
  rw [hdt]
  rcases hgl : s.getLast? with _ | c
  · rfl
  · have hne : c ≠ ']' :=
      lowAlSpace_ne (hch c (mem_getLast? hgl)) ']' (by decide)
    exact if_neg hne

/-- The delimiter scanner is the identity when the opening delimiter does
not occur. -/
theorem subDelimsAux_no_open (op cl : Char) : ∀ (s : List Char),
    (∀ c ∈ s, c ≠ op) → subDelimsAux op cl none s = s
  | [], _ => rfl
  | c :: r, h => by
      show (if c = op then subDelimsAux op cl (some []) r
        else c :: subDelimsAux op cl none r) = c :: r
      rw [if_neg (h c (List.mem_cons_self c r)),
        subDelimsAux_no_open op cl r (fun d hd => h d (List.mem_cons_of_mem c hd))]

/-- The fluff scanner is the identity when no colon occurs. -/
theorem subFluffAux_no_colon (phrase : List Char) : ∀ (fuel : Nat)
    (s : List Char), (∀ c ∈ s, c ≠ ':') → subFluffAux phrase fuel s = s
  | fuel, [], _ => by cases fuel <;> rfl
  | 0, _ :: _, _ => rfl
  | fuel + 1, c :: r, h => by
      show (if c = ':' then
          (match fluffMatch phrase r with
           | some rest => subFluffAux phrase fuel rest
           | none => ':' :: subFluffAux phrase fuel r)
        else c :: subFluffAux phrase fuel r) = c :: r
      rw [if_neg (h c (List.mem_cons_self c r)),
        subFluffAux_no_colon phrase fuel r
          (fun d hd => h d (List.mem_cons_of_mem c hd))]

/-- `splitAtLast` finds nothing when the character does not occur. -/
theorem splitAtLast_none (ch : Char) : ∀ (s : List Char),
    (∀ c ∈ s, c ≠ ch) → splitAtLast ch s = none
  | [], _ => rfl
  | c :: r, h => by
      have hr := splitAtLast_none ch r (fun d hd => h d (List.mem_cons_of_mem c hd))
      unfold splitAtLast
      rw [hr]
      exact if_neg (h c (List.mem_cons_self c r))

/-- On comma-free text the comma-article stage is the identity. -/
theorem commaTheStage_eq_self {s : List Char}
    (h : ∀ c ∈ s, lowAlSpace c = true) : commaTheStage s = s := by
  unfold commaTheStage commaTheMatch
  rw [splitAtLast_none ',' s (fun c hc => lowAlSpace_ne (h c hc) ',' (by decide))]

/-- On normalized text the `by`-tail matcher fails unless the text starts
with the word " by ". -/
theorem matchByTail_none : ∀ (rest : List Char),
    (∀ c ∈ rest, lowAlSpace c = true) → noTwoSpaces rest = true →
    startsByWord rest = false → matchByTail rest = none := by
  intro rest hch hnt hs
  cases rest with
  | nil => rfl
  | cons d rest2 =>
    by_cases hd : pySpace d = true
    · have hd2 : d = ' ' := lowAlSpace_space (hch d (List.mem_cons_self _ _)) hd
      subst hd2
      cases rest2 with
      | nil => decide
      | cons b rest3 =>
        have hbne : b ≠ ' ' := by
          simp only [noTwoSpaces, Bool.and_eq_true, Bool.not_eq_true',
            Bool.and_eq_false_iff] at hnt
          rcases hnt.1 with h | h
          · simp at h
          · simpa using h
        have hbm : b ∈ ' ' :: b :: rest3 :=
          List.mem_cons_of_mem _ (List.mem_cons_self _ _)
        have hbs : pySpace b = false := lowAlSpace_not_space (hch b hbm) hbne
        have hsp : pySpace ' ' = true := by decide
        have hw1 : (' ' :: b :: rest3).takeWhile pySpace = [' '] := by
          rw [List.takeWhile_cons, hsp, if_pos rfl, List.takeWhile_cons, hbs]
          rfl
        have hr1 : (' ' :: b :: rest3).dropWhile pySpace = b :: rest3 := by
          rw [List.dropWhile_cons, hsp, if_pos rfl, List.dropWhile_cons, hbs]
          rfl
        simp only [matchByTail]
        rw [hw1, hr1]
        simp only [List.isEmpty_cons, Bool.false_eq_true, if_false]
        cases rest3 with
        | nil => rfl
        | cons y r2 =>
          have hpb : pyLower b = b := pyLower_lowAlSpace (hch b hbm)
          have hpy : pyLower y = y := pyLower_lowAlSpace (hch y (by simp))
          show (if pyLower b = 'b' && pyLower y = 'y' then
              if (r2.takeWhile pySpace).isEmpty then none
              else if !(r2.dropWhile pySpace).isEmpty then
                (if (r2.dropWhile pySpace).any (fun c => decide (c = '\n'))
                  then none else some (r2.dropWhile pySpace))
              else byTailLast (r2.takeWhile pySpace)
            else none) = none
          rw [hpb, hpy]
          by_cases hbb : b = 'b'
          · by_cases hyy : y = 'y'
            · subst hbb
              subst hyy
              rw [if_pos (by simp)]
              cases r2 with
              | nil => rfl
              | cons e r4 =>
                by_cases he : pySpace e = true
                · have he2 : e = ' ' :=
                    lowAlSpace_space (hch e (by simp)) he
                  subst he2
                  exact absurd hs (by simp [startsByWord])
                · have he' : pySpace e = false := Bool.eq_false_iff.mpr he
                  rw [List.takeWhile_cons, he']
                  rfl
            · rw [if_neg (by simp [hyy])]
          · rw [if_neg (by simp [hbb])]
    · have hd' : pySpace d = false := Bool.eq_false_iff.mpr hd
      simp only [matchByTail]
      rw [List.takeWhile_cons, hd']
      simp

/-- A list without " by " does not start with it. -/
theorem hasByWord_starts {s : List Char} (h : hasByWord s = false) :
    startsByWord s = false := by
  cases s with
  | nil => rfl
  | cons c r =>
      replace h : (startsByWord (c :: r) || hasByWord r) = false := h
      rcases hx : startsByWord (c :: r)
      · rfl
      · rw [hx] at h
        simp at h

/-- The " by " freedom passes to the tail. -/
theorem hasByWord_tail {c : Char} {r : List Char}
    (h : hasByWord (c :: r) = false) : hasByWord r = false := by
  replace h : (startsByWord (c :: r) || hasByWord r) = false := h
  rcases hx : hasByWord r
  · rfl
  · rw [hx] at h
    simp at h

/-- On normalized text without " by " the non-greedy scanner fails. -/
theorem byMatchAux_none : ∀ (acc s : List Char),
    (∀ c ∈ s, lowAlSpace c = true) → noTwoSpaces s = true →
    hasByWord s = false → byMatchAux acc s = none
  | _, [], _, _, _ => rfl
  | acc, c :: rest, hch, hnt, hby => by
      have hcn : c ≠ '\n' :=
        lowAlSpace_ne (hch c (List.mem_cons_self c rest)) '\n' (by decide)
      have hmt : matchByTail rest = none := by
        refine matchByTail_none rest
          (fun d hd => hch d (List.mem_cons_of_mem c hd))
          (noTwoSpaces_tail hnt) ?_
        exact hasByWord_starts (hasByWord_tail hby)
      rw [byMatchAux_cons, if_neg hcn, hmt]
      exact byMatchAux_none (c :: acc) rest
        (fun d hd => hch d (List.mem_cons_of_mem c hd))
        (noTwoSpaces_tail hnt) (hasByWord_tail hby)

/-- On normalized text the punctuation filter is the identity. -/
theorem removeNonAlnum_eq_self {s : List Char}
    (h : ∀ c ∈ s, lowAlSpace c = true) : removeNonAlnum s = s := by
  unfold removeNonAlnum
  exact List.filter_eq_self.mpr fun c hc => lowAlSpace_filter (h c hc)

/-- On text with no two adjacent spaces and only plain spaces as
whitespace, collapsing is the identity. -/
theorem collapseWs_eq_self : ∀ (s : List Char),
    (∀ c ∈ s, lowAlSpace c = true) → noTwoSpaces s = true → collapseWs s = s
  | [], _, _ => rfl
  | [c], h, _ => by
      show [if pySpace c then ' ' else c] = [c]
      by_cases hc : pySpace c = true
      · rw [if_pos hc, lowAlSpace_space (h c (List.mem_cons_self c [])) hc]
      · rw [if_neg hc]
  | c1 :: c2 :: r, h, hnt => by
      have h1 := h c1 (List.mem_cons_self _ _)
      have h2 := h c2 (List.mem_cons_of_mem _ (List.mem_cons_self _ _))
      have hnb : (pySpace c1 && pySpace c2) = false := by
        rcases hp1 : pySpace c1
        · rfl
        · rcases hp2 : pySpace c2
          · rw [Bool.and_false]
          · exfalso
            have e1 := lowAlSpace_space h1 hp1
            have e2 := lowAlSpace_space h2 hp2
            rw [e1, e2] at hnt
            simp [noTwoSpaces] at hnt
      show (if pySpace c1 && pySpace c2 then collapseWs (c2 :: r)
          else (if pySpace c1 then ' ' else c1) :: collapseWs (c2 :: r)) =
        c1 :: c2 :: r
      rw [hnb]
      simp only [Bool.false_eq_true, if_false]
      rw [collapseWs_eq_self (c2 :: r)
        (fun d hd => h d (List.mem_cons_of_mem _ hd)) (noTwoSpaces_tail hnt)]
      by_cases hp1 : pySpace c1 = true
      · rw [if_pos hp1, lowAlSpace_space h1 hp1]
      · rw [if_neg hp1]

/-- On already-lower-case text lower-casing is the identity. -/
theorem map_pyLower_eq_self {s : List Char}
    (h : ∀ c ∈ s, lowAlSpace c = true) : s.map pyLower = s := by
  have h2 : ∀ c ∈ s, pyLower c = id c := fun c hc => pyLower_lowAlSpace (h c hc)
  rw [List.map_congr_left h2, List.map_id]

/-- On a normalized string the final cleanup is the identity. -/
theorem finalClean_eq_self {s : List Char} (h : NormalizedStr s) :
    finalClean s = s := by
  unfold finalClean
  rw [collapseWs_eq_self s h.1 h.2.1, pyStrip_eq_self h,
    map_pyLower_eq_self h.1]

/-- On a normalized string with no " by " word, the whole normalization
core is the identity when the author argument is empty. -/
theorem normalizeCore_eq_self {s : List Char} (h : NormalizedStr s)
    (hby : hasByWord s = false) : normalizeCore s [] = s := by
  obtain ⟨hch, hnt, hh, hl⟩ := h
  have hps : pyStrip s = s := pyStrip_eq_self ⟨hch, hnt, hh, hl⟩
  have ht : titleScrub s = s := by
    simp only [titleScrub, subInlineBrackets, subParens, subFluff]
    rw [subLeadingBracket_eq_self ⟨hch, hnt, hh, hl⟩,
      subTrailingBracket_eq_self ⟨hch, hnt, hh, hl⟩,
      subDelimsAux_no_open '[' ']' s
        (fun c hc => lowAlSpace_ne (hch c hc) '[' (by decide)),
      subDelimsAux_no_open '(' ')' s
        (fun c hc => lowAlSpace_ne (hch c hc) '(' (by decide)),
      subFluffAux_no_colon _ _ s
        (fun c hc => lowAlSpace_ne (hch c hc) ':' (by decide)),
      subFluffAux_no_colon _ _ s
        (fun c hc => lowAlSpace_ne (hch c hc) ':' (by decide)),
      subFluffAux_no_colon _ _ s
        (fun c hc => lowAlSpace_ne (hch c hc) ':' (by decide))]
  have hcm : commaTheStage s = s := commaTheStage_eq_self hch
  have hbm : byMatch s = none := byMatchAux_none [] s hch hnt hby
  have hbs : byStage s [] = (s, []) := by
    unfold byStage
    rw [if_pos (by decide : ([] : List Char).isEmpty = true), hbm]
  simp only [normalizeCore]
  rw [show pyStrip ([] : List Char) = [] from rfl, hps, ht, hcm, hbs]
  show combineStage (finalClean (removeNonAlnum s))
    (finalClean (removeNonAlnum [])) = s
  rw [removeNonAlnum_eq_self hch, finalClean_eq_self ⟨hch, hnt, hh, hl⟩]
  show combineStage s [] = s
  cases s with
  | nil => rfl
  | cons c r => rfl

/-- C6.  As stated the claim is false: re-normalizing an already-normalized
string is a no-op only when the normalized string does not contain the
word " by ".  When it does, the second pass (whose author argument is
empty) re-applies the `^(.+?)\s+by\s+(.+)$` split and changes the string
(counterexample `normalize_not_idempotent`).  Under that proviso the
corrected statement holds: `normalize_book_string` applied to its own
output with an empty author returns it unchanged. -/
theorem normalize_idempotent_no_by (t a : String)
    (h : hasByWord (normalize_book_string t a).data = false) :
    normalize_book_string (normalize_book_string t a) "" =
      normalize_book_string t a := by
  unfold normalize_book_string at h ⊢
  exact congrArg String.mk
    (normalizeCore_eq_self (normalized_normalizeCore t.data a.data) h)

/-- Counterexample to the literal claim C6: "Stand By Me" / "Stephen King"
normalizes to "stand by me stephen king"; re-normalizing that (with the
empty author of a single-string call) triggers the by-split and yields
"stand me stephen king". -/
theorem normalize_not_idempotent :
    normalize_book_string
        (normalize_book_string "Stand By Me" "Stephen King") "" ≠
      normalize_book_string "Stand By Me" "Stephen King" := by decide

/-- Witness for `normalize_idempotent_no_by` at a concrete input. -/
theorem normalize_idempotent_no_by_witness :
    hasByWord (normalize_book_string "Dune" "Frank Herbert").data = false ∧
      normalize_book_string
          (normalize_book_string "Dune" "Frank Herbert") "" =
        normalize_book_string "Dune" "Frank Herbert" :=
  ⟨by decide, normalize_idempotent_no_by "Dune" "Frank Herbert" (by decide)⟩
